import Mathlib

/-!
Verification of the lexical scanner in Cl-Eagl-.

The embedding below translates the C++ sources:
  * src/src/scanner/OperatorTrie.cpp / OperatorTrie.h   (trie)
  * src/src/scanner/Scanner.cpp / ScanContext.h          (matchers, driver)
  * src/src/main.cpp                                     (same matchers and driver,
    written with explicit per-character loops; semantically identical)

Source text is a list of characters, the scan cursor is `ScanState`
(byte offset, 1-based line, sticky error flag), and each matcher is a
function returning `none` ("not handled", no state change, mirroring the
C++ matchers which mutate only when they return true) or
`some (state', events)`.  Printed tokens and printed errors become
`Event` values, in emission order.

`double` values that arise from `std::stod` on numeric lexemes are
modelled exactly as rationals rounded to IEEE-754 binary64
(round-to-nearest, ties-to-even), with `none` for the out-of-range
overflow that makes `std::stod` throw `std::out_of_range`.
-/

set_option maxRecDepth 100000

/-- Model of C `isdigit` (C locale, as used via `std::isdigit` on an
unsigned char) on an ASCII character. -/
def cIsDigit (c : Char) : Bool :=
  decide (48 ≤ c.toNat) && decide (c.toNat ≤ 57)

/-- Model of C `isspace` (C locale): space, \t, \n, \v, \f, \r. -/
def cIsSpace (c : Char) : Bool :=
  decide (c.toNat = 32) || (decide (9 ≤ c.toNat) && decide (c.toNat ≤ 13))

/-- Model of C `isalpha` (C locale): ASCII letters. -/
def cIsAlpha (c : Char) : Bool :=
  (decide (65 ≤ c.toNat) && decide (c.toNat ≤ 90)) ||
  (decide (97 ≤ c.toNat) && decide (c.toNat ≤ 122))

/-- Model of C `isalnum` (C locale). -/
def cIsAlnum (c : Char) : Bool := cIsAlpha c || cIsDigit c

/-- Embeds `isIdentifierStartChar` (ScanContext.h lines 41-43):
letter or underscore. -/
def isIdentifierStartChar (c : Char) : Bool := cIsAlpha c || decide (c = '_')

/-- Embeds `isIdentifierPartChar` (ScanContext.h lines 45-47):
letter, digit or underscore. -/
def isIdentifierPartChar (c : Char) : Bool := cIsAlnum c || decide (c = '_')

/-- Number of newline characters in a character list. -/
def countNewlines : List Char → Nat
  | [] => 0
  | c :: cs => (if c = '\n' then 1 else 0) + countNewlines cs

/-- The scan cursor (ScanContext.h lines 15-34): byte offset into the
source, current 1-based line, accumulated error flag. -/
structure ScanState where
  pos : Nat
  line : Nat
  errorFlag : Bool
deriving DecidableEq, Repr

/-- The three error reports the scanner prints to stderr. -/
inductive ScanError where
  | unexpectedChar (line : Nat) (c : Char)
  | unterminatedString (line : Nat)
  | numberOutOfRange (line : Nat) (lexeme : List Char)
deriving DecidableEq, Repr

/-- One unit of scanner output: a printed token line (kind, lexeme,
optional literal; `none` renders as "null") or a printed error line. -/
inductive Event where
  | token (kind : String) (lexeme : List Char) (literal : Option (List Char))
  | error (e : ScanError)
deriving DecidableEq, Repr

/-- Embeds `TrieNode` (OperatorTrie.h lines 11-17): children map from
characters to owned child nodes, plus an optional terminal token kind.
The `unordered_map` is modelled as an association list. -/
inductive TrieNode where
  | mk (children : List (Char × TrieNode)) (token_type : Option String)

/-- Children of a trie node. -/
def TrieNode.children : TrieNode → List (Char × TrieNode)
  | .mk cs _ => cs

/-- Terminal token kind of a trie node. -/
def TrieNode.token_type : TrieNode → Option String
  | .mk _ t => t

/-- A freshly constructed `TrieNode` (no children, no terminal kind). -/
def emptyNode : TrieNode := .mk [] none

/-- Lookup in the children map (models `children.find(ch)`). -/
def childLookup : List (Char × TrieNode) → Char → Option TrieNode
  | [], _ => none
  | (c', v) :: rest, c => if c' = c then some v else childLookup rest c

/-- Update-or-add in the children map (models `children[ch] = ...`). -/
def updateChild : List (Char × TrieNode) → Char → TrieNode → List (Char × TrieNode)
  | [], c, v => [(c, v)]
  | (c', v') :: rest, c, v =>
    if c' = c then (c, v) :: rest else (c', v') :: updateChild rest c v

/-- Embeds `OperatorTrie::insert` (OperatorTrie.cpp lines 11-20): walk
the lexeme, creating a fresh node for each missing edge, and set the
terminal kind of the final node (last write wins). -/
def TrieNode.insertPath : TrieNode → List Char → String → TrieNode
  | n, [], ty => .mk n.children (some ty)
  | n, c :: cs, ty =>
    let child := (childLookup n.children c).getD emptyNode
    .mk (updateChild n.children c (child.insertPath cs ty)) n.token_type

/-- Embeds the `OperatorTrie` class (OperatorTrie.h lines 20-32). -/
structure OperatorTrie where
  root : TrieNode

/-- A freshly constructed `OperatorTrie` (OperatorTrie.cpp line 9). -/
def OperatorTrie.new : OperatorTrie := ⟨emptyNode⟩

/-- `OperatorTrie::insert` on the wrapper. -/
def OperatorTrie.insert (t : OperatorTrie) (lexeme : List Char) (tokenType : String) :
    OperatorTrie :=
  ⟨t.root.insertPath lexeme tokenType⟩

/-- The loop of `OperatorTrie::searchLongestMatch` (OperatorTrie.cpp
lines 28-39): follow edges character by character, recording
`(i + 1, kind)` at every terminal node passed, stopping at the first
missing edge or at end of input.  `i` counts characters consumed so far
and `best` is the best match recorded so far. -/
def searchFrom : TrieNode → List Char → Nat → Nat × Option String → Nat × Option String
  | _, [], _, best => best
  | n, c :: rest, i, best =>
    match childLookup n.children c with
    | none => best
    | some child =>
      searchFrom child rest (i + 1)
        (if child.token_type.isSome then (i + 1, child.token_type) else best)

/-- Embeds `OperatorTrie::searchLongestMatch` (OperatorTrie.cpp lines
22-41): returns the length of the longest registered lexeme that the
walk found, with its kind, or `(0, none)`. -/
def OperatorTrie.searchLongestMatch (t : OperatorTrie) (text : List Char) :
    Nat × Option String :=
  searchFrom t.root text 0 (0, none)

/-- The kind stored in a trie at the end of a given path, if the whole
path exists and its final node is terminal. -/
def kindOf : TrieNode → List Char → Option String
  | n, [] => n.token_type
  | n, c :: cs =>
    match childLookup n.children c with
    | none => none
    | some child => kindOf child cs

/-- Fold a list of (lexeme, kind) registrations into a trie, in order
(models a sequence of `insert` calls on a fresh trie). -/
def buildTrie (pairs : List (List Char × String)) : OperatorTrie :=
  pairs.foldl (fun t p => t.insert p.1 p.2) OperatorTrie.new

/-- The kind a sequence of `insert` calls associates to a lexeme:
`none` if the lexeme was never inserted, otherwise the kind of its last
insertion (last write wins). -/
def registeredKind : List (List Char × String) → List Char → Option String
  | [], _ => none
  | p :: ps, w =>
    match registeredKind ps w with
    | some k => some k
    | none => if p.1 = w then some p.2 else none

/-- The 19 operator registrations performed by the `Scanner`
constructor (Scanner.cpp lines 19-37; identically main.cpp lines
301-319), in source order. -/
def opPairs : List (List Char × String) :=
  [("==".toList, "EQUAL_EQUAL"), ("!=".toList, "BANG_EQUAL"),
   ("<=".toList, "LESS_EQUAL"), (">=".toList, "GREATER_EQUAL"),
   ("(".toList, "LEFT_PAREN"), (")".toList, "RIGHT_PAREN"),
   ("\x7b".toList, "LEFT_BRACE"), ("\x7d".toList, "RIGHT_BRACE"),
   (",".toList, "COMMA"), (".".toList, "DOT"),
   ("-".toList, "MINUS"), ("+".toList, "PLUS"),
   (";".toList, "SEMICOLON"), ("*".toList, "STAR"),
   ("=".toList, "EQUAL"), ("!".toList, "BANG"),
   ("<".toList, "LESS"), (">".toList, "GREATER"),
   ("/".toList, "SLASH")]

/-- The operator trie the scanner is constructed with. -/
def operatorTrie : OperatorTrie := buildTrie opPairs

/-- The 16 keyword registrations (Scanner.cpp lines 39-44; identically
main.cpp lines 321-328). -/
def kwPairs : List (List Char × String) :=
  [("and".toList, "AND"), ("class".toList, "CLASS"), ("else".toList, "ELSE"),
   ("false".toList, "FALSE"), ("for".toList, "FOR"), ("fun".toList, "FUN"),
   ("if".toList, "IF"), ("nil".toList, "NIL"), ("or".toList, "OR"),
   ("print".toList, "PRINT"), ("return".toList, "RETURN"),
   ("super".toList, "SUPER"), ("this".toList, "THIS"), ("true".toList, "TRUE"),
   ("var".toList, "VAR"), ("while".toList, "WHILE")]

/-- Exact-match keyword lookup (models `ctx.keywords.find(lexeme)`). -/
def keywordLookup : List (List Char × String) → List Char → Option String
  | [], _ => none
  | p :: ps, w => if p.1 = w then some p.2 else keywordLookup ps w

/-- Decimal value of a digit string, accumulated left to right (the
integer `std::stod` sees in a run of digits). -/
def digitsVal (cs : List Char) : Nat :=
  cs.foldl (fun a c => a * 10 + (c.toNat - 48)) 0

/-- Fuel-driven base-10 rendering helper (most significant digit
first); `natDecimalAux f n` is the digit string of `n` whenever
`n ≤ f`. -/
def natDecimalAux : Nat → Nat → List Char
  | 0, _ => []
  | f + 1, n =>
    if n = 0 then [] else natDecimalAux f (n / 10) ++ [Nat.digitChar (n % 10)]

/-- Decimal rendering of a natural number ("the decimal rendering of
n", and the digit expansion printed by printf-style formatting of an
integer-valued double). -/
def natDecimalRender (n : Nat) : List Char :=
  if n = 0 then ['0'] else natDecimalAux n n

/-- Fuel-driven floor of log₂. -/
def log2Fuel : Nat → Nat → Nat
  | 0, _ => 0
  | f + 1, n => if 2 ≤ n then log2Fuel f (n / 2) + 1 else 0

/-- Floor of log₂ of a positive natural number. -/
def natLog2 (n : Nat) : Nat := log2Fuel n n

/-- Fuel-driven floor of log₁₀. -/
def log10Fuel : Nat → Nat → Nat
  | 0, _ => 0
  | f + 1, n => if 10 ≤ n then log10Fuel f (n / 10) + 1 else 0

/-- Floor of log₁₀ of a positive natural number. -/
def natLog10 (n : Nat) : Nat := log10Fuel n n

/-- Floor of log₂ of the exact positive rational `N / D`, in pure
natural-number arithmetic: with `a = ⌊log₂ N⌋` and `b = ⌊log₂ D⌋` the
answer is `a - b` or `a - b - 1`, decided by whether
`2^(a-b) ≤ N / D`, i.e. `2^a · D ≤ 2^b · N`. -/
def floorLog2ND (N D : Nat) : Int :=
  if 2 ^ natLog2 N * D ≤ 2 ^ natLog2 D * N then
    (natLog2 N : Int) - natLog2 D
  else (natLog2 N : Int) - natLog2 D - 1

/-- Floor of log₁₀ of the exact positive rational `N / D`, same
scheme. -/
def floorLog10ND (N D : Nat) : Int :=
  if 10 ^ natLog10 N * D ≤ 10 ^ natLog10 D * N then
    (natLog10 N : Int) - natLog10 D
  else (natLog10 N : Int) - natLog10 D - 1

/-- Round the exact nonnegative rational `N / D` (with `D > 0`) to the
nearest natural number, ties to even. -/
def roundHalfEvenND (N D : Nat) : Nat :=
  let w := N / D
  let r := N % D
  if 2 * r < D then w
  else if D < 2 * r then w + 1
  else if w % 2 = 0 then w else w + 1

/-- Model of IEEE-754 binary64 (`double`): round the exact nonnegative
rational `N / D` to the nearest representable value (round-to-nearest,
ties-to-even, unit in the last place `2 ^ max (⌊log₂ (N/D)⌋ - 52)
(-1074)`), returned as a mantissa–exponent pair `(m, e)` denoting
`m · 2^e`.  Returns `none` when the rounded value overflows the format
(reaches `2^1024`), the condition under which `std::stod` throws
`std::out_of_range` for the nonnegative lexemes this scanner feeds
it. -/
def roundB64ND (N D : Nat) : Option (Nat × Int) :=
  if N = 0 then some (0, 0)
  else
    let ulp : Int := max (floorLog2ND N D - 52) (-1074)
    let m : Nat :=
      if 0 ≤ ulp then roundHalfEvenND N (D * 2 ^ ulp.toNat)
      else roundHalfEvenND (N * 2 ^ (-ulp).toNat) D
    let ok : Bool :=
      if 0 ≤ ulp then decide (m * 2 ^ ulp.toNat < 2 ^ 1024)
      else decide (m < 2 ^ 1024 * 2 ^ (-ulp).toNat)
    if ok = true then some (m, ulp) else none

/-- Model of `std::stod` on the lexemes `scanNumberLiteral` produces
(a digit run, optionally followed by a dot and a digit run): the exact
decimal value `(I · 10^k + F) / 10^k` rounded to binary64; `none` is
`std::out_of_range` (overflow).  `std::invalid_argument` is unreachable
for these lexemes (they always start with a digit) and is not
modelled. -/
def stodModel (lexeme : List Char) : Option (Nat × Int) :=
  let ip := lexeme.takeWhile cIsDigit
  let rest := lexeme.drop ip.length
  let fp := match rest with
    | '.' :: fs => fs
    | _ => []
  roundB64ND (digitsVal ip * 10 ^ fp.length + digitsVal fp) (10 ^ fp.length)

/-- Exponent suffix of printf `%g` scientific notation: sign, then the
exponent with at least two digits. -/
def expChars (e : Int) : List Char :=
  (if e < 0 then '-' else '+') ::
    (if (natDecimalRender e.natAbs).length < 2 then '0' :: natDecimalRender e.natAbs
     else natDecimalRender e.natAbs)

/-- Model of printf `"%.15g"` on the positive non-integral binary64
value `m / 2^j` (`j > 0`, `m` not divisible by `2^j`): round to 15
significant decimal digits, drop insignificant trailing zeros, and use
scientific notation when the decimal exponent is below -4 or at least
15.  (No claim depends on this branch.) -/
def format15g (m j : Nat) : List Char :=
  let d10 := floorLog10ND m (2 ^ j)
  let scaled :=
    if 0 ≤ (14 : Int) - d10 then
      roundHalfEvenND (m * 10 ^ ((14 : Int) - d10).toNat) (2 ^ j)
    else roundHalfEvenND m (2 ^ j * 10 ^ (d10 - 14).toNat)
  let digits := if scaled = 10 ^ 15 then 10 ^ 14 else scaled
  let e := if scaled = 10 ^ 15 then d10 + 1 else d10
  let ds := natDecimalRender digits
  if e < -4 ∨ 15 ≤ e then
    ds.take 1
      ++ (if ((ds.drop 1).reverse.dropWhile (fun c => c = '0')).reverse = [] then []
          else '.' :: ((ds.drop 1).reverse.dropWhile (fun c => c = '0')).reverse)
      ++ 'e' :: expChars e
  else if 0 ≤ e then
    ds.take (e.toNat + 1)
      ++ (if ((ds.drop (e.toNat + 1)).reverse.dropWhile (fun c => c = '0')).reverse = []
          then []
          else '.' :: ((ds.drop (e.toNat + 1)).reverse.dropWhile (fun c => c = '0')).reverse)
  else
    '0' :: '.' :: List.replicate ((-e).toNat - 1) '0'
      ++ (ds.reverse.dropWhile (fun c => c = '0')).reverse

/-- Embeds `Scanner::formatDoubleForLoxLiteral` (Scanner.cpp lines
218-225; main.cpp lines 181-190) on the mantissa–exponent value
`v.1 · 2^(v.2)`: an integral value (`std::modf` fractional part zero)
is printed `"%.1f"`, i.e. its exact decimal digits followed by ".0";
otherwise `"%.15g"`. -/
def formatDoubleForLoxLiteral (v : Nat × Int) : List Char :=
  if 0 ≤ v.2 then natDecimalRender (v.1 * 2 ^ v.2.toNat) ++ ['.', '0']
  else if v.1 % 2 ^ (-v.2).toNat = 0 then
    natDecimalRender (v.1 / 2 ^ (-v.2).toNat) ++ ['.', '0']
  else format15g v.1 (-v.2).toNat


/-- Result of the string-literal consumption loop. -/
structure StrScan where
  terminated : Bool
  lit : List Char
  consumed : Nat
  line : Nat
deriving DecidableEq, Repr

/-- The consumption loop of `scanStringLiteral` (main.cpp lines
155-166; the chunked search of Scanner.cpp lines 160-203 consumes the
same characters): walk the characters after the opening quote; a quote
terminates (and is consumed); every other character joins the literal,
a newline also incrementing the line; end of input leaves the string
unterminated. -/
def stringBody : List Char → Nat → StrScan
  | [], line => ⟨false, [], 0, line⟩
  | c :: rest, line =>
    if c = '"' then ⟨true, [], 1, line⟩
    else
      let r := stringBody rest (if c = '\n' then line + 1 else line)
      ⟨r.terminated, c :: r.lit, r.consumed + 1, r.line⟩

/-- Embeds `Scanner::scanNewline` (Scanner.cpp lines 92-99): exactly
one '\n', incrementing the line. -/
def scanNewline (src : List Char) (s : ScanState) : Option (ScanState × List Event) :=
  match src.get? s.pos with
  | some c =>
    if c = '\n' then some ({ s with line := s.line + 1, pos := s.pos + 1 }, []) else none
  | none => none

/-- Embeds `Scanner::scanWhitespace` (Scanner.cpp lines 101-123):
exactly one whitespace character other than '\n'. -/
def scanWhitespace (src : List Char) (s : ScanState) : Option (ScanState × List Event) :=
  match src.get? s.pos with
  | some c =>
    if c ≠ '\n' ∧ cIsSpace c = true then some ({ s with pos := s.pos + 1 }, []) else none
  | none => none

/-- Embeds `Scanner::scanComment` (Scanner.cpp lines 125-143; main.cpp
lines 138-147): on a leading "//", consume up to but not including the
next '\n', or to end of input when there is none — in both cases the
characters consumed are exactly the maximal '\n'-free run. -/
def scanComment (src : List Char) (s : ScanState) : Option (ScanState × List Event) :=
  match src.drop s.pos with
  | '/' :: '/' :: _ =>
    some ({ s with
            pos := s.pos + ((src.drop s.pos).takeWhile (fun c => c ≠ '\n')).length }, [])
  | _ => none

/-- Embeds `Scanner::scanStringLiteral` (Scanner.cpp lines 145-216;
main.cpp lines 148-180): on an opening quote, consume through the
closing quote (emitting a STRING token whose lexeme includes both
quotes and whose literal is the raw contents) or to end of input
(emitting an unterminated-string error at the opening line and setting
the error flag). -/
def scanStringLiteral (src : List Char) (s : ScanState) : Option (ScanState × List Event) :=
  match src.get? s.pos with
  | some c =>
    if c = '"' then
      let r := stringBody (src.drop (s.pos + 1)) s.line
      if r.terminated then
        some ({ s with pos := s.pos + 1 + r.consumed, line := r.line },
              [Event.token "STRING" ((src.drop s.pos).take (1 + r.consumed)) (some r.lit)])
      else
        some ({ s with pos := s.pos + 1 + r.consumed, line := r.line, errorFlag := true },
              [Event.error (ScanError.unterminatedString s.line)])
    else none
  | none => none

/-- Cursor position after the integer-part loop of
`scanNumberLiteral` (the C++ local state after Scanner.cpp line 240):
the initial position plus the maximal leading digit run. -/
def numIntEnd (src : List Char) (s : ScanState) : Nat :=
  s.pos + ((src.drop s.pos).takeWhile cIsDigit).length

/-- Final cursor position of `scanNumberLiteral` (the C++ local state
after Scanner.cpp line 256): the fractional part — the '.' plus a
second maximal digit run — is consumed only when the cursor sits on a
'.' and the character after the '.' exists and is itself a digit
(Scanner.cpp lines 243-247). -/
def numEnd (src : List Char) (s : ScanState) : Nat :=
  if src.get? (numIntEnd src s) = some '.' ∧
      (src.get? (numIntEnd src s + 1)).any cIsDigit = true then
    numIntEnd src s + 1 + ((src.drop (numIntEnd src s + 1)).takeWhile cIsDigit).length
  else numIntEnd src s

/-- Embeds `Scanner::scanNumberLiteral` (Scanner.cpp lines 227-291;
main.cpp lines 191-233): on a leading digit, consume the digit run and
a fractional part when present (see `numEnd`); then hand the lexeme to
`std::stod`, emitting either an out-of-range error (flag set, position
still advanced) or a NUMBER token with the formatted literal. -/
def scanNumberLiteral (src : List Char) (s : ScanState) : Option (ScanState × List Event) :=
  match src.get? s.pos with
  | some c =>
    if cIsDigit c = true then
      let lexeme := (src.drop s.pos).take (numEnd src s - s.pos)
      match stodModel lexeme with
      | none =>
        some ({ s with pos := numEnd src s, errorFlag := true },
              [Event.error (ScanError.numberOutOfRange s.line lexeme)])
      | some v =>
        some ({ s with pos := numEnd src s },
              [Event.token "NUMBER" lexeme (some (formatDoubleForLoxLiteral v))])
    else none
  | none => none

/-- Embeds `Scanner::scanIdentifierOrKeyword` (Scanner.cpp lines
293-321; main.cpp lines 236-264): on a letter or underscore, consume
the maximal identifier run, then emit the keyword kind on an exact
keyword-table hit and IDENTIFIER otherwise, with no literal. -/
def scanIdentifierOrKeyword (src : List Char) (s : ScanState) :
    Option (ScanState × List Event) :=
  match src.get? s.pos with
  | some c =>
    if isIdentifierStartChar c = true then
      let p2 := s.pos + 1 + ((src.drop (s.pos + 1)).takeWhile isIdentifierPartChar).length
      let lexeme := (src.drop s.pos).take (p2 - s.pos)
      let kind := (keywordLookup kwPairs lexeme).getD "IDENTIFIER"
      some ({ s with pos := p2 }, [Event.token kind lexeme none])
    else none
  | none => none

/-- Embeds `Scanner::scanOperator` (Scanner.cpp lines 323-340; main.cpp
lines 267-283): longest trie match at the cursor; on a nonzero match
with a kind, emit that kind with the matched slice as lexeme and no
literal, advancing by the match length. -/
def scanOperator (src : List Char) (s : ScanState) : Option (ScanState × List Event) :=
  if s.pos < src.length then
    match operatorTrie.searchLongestMatch (src.drop s.pos) with
    | (matched_length, some ty) =>
      if 0 < matched_length then
        some ({ s with pos := s.pos + matched_length },
              [Event.token ty ((src.drop s.pos).take matched_length) none])
      else none
    | (_, none) => none
  else none

/-- The matcher pipeline in its registered order (Scanner.cpp lines
46-53; main.cpp lines 345-348), first match wins, as executed by
`std::ranges::find_if` in the driver. -/
def tryMatchers (src : List Char) (s : ScanState) : Option (ScanState × List Event) :=
  (scanNewline src s).orElse fun _ =>
  (scanWhitespace src s).orElse fun _ =>
  (scanComment src s).orElse fun _ =>
  (scanStringLiteral src s).orElse fun _ =>
  (scanNumberLiteral src s).orElse fun _ =>
  (scanIdentifierOrKeyword src s).orElse fun _ =>
  scanOperator src s

/-- One iteration of the driver loop body (Scanner.cpp lines 60-88;
main.cpp lines 350-371): run the pipeline; if no matcher handled the
position and input remains, report an unexpected-character error at the
current line with the current character, set the error flag, and
advance the offset by exactly one. -/
def stepScan (src : List Char) (s : ScanState) : ScanState × List Event :=
  match tryMatchers src s with
  | some r => r
  | none =>
    if h : s.pos < src.length then
      ({ s with errorFlag := true, pos := s.pos + 1 },
       [Event.error (ScanError.unexpectedChar s.line (src.get ⟨s.pos, h⟩))])
    else (s, [])


/-- A successful `get?` exposes the list structure at that offset. -/
theorem drop_eq_cons_of_get? {α : Type} :
    ∀ {l : List α} {p : Nat} {c : α}, l.get? p = some c → l.drop p = c :: l.drop (p + 1) := by
  intro l
  induction l with
  | nil => intro p c h; simp at h
  | cons x xs ih =>
    intro p c h
    cases p with
    | zero => simp at h; simp [h]
    | succ q =>
      simp only [List.get?_cons_succ] at h
      simpa using ih h

/-- A successful `get?` bounds the offset. -/
theorem pos_lt_of_get? {α : Type} {l : List α} {p : Nat} {c : α}
    (h : l.get? p = some c) : p < l.length := by
  by_contra hp
  rw [List.get?_eq_none.mpr (Nat.le_of_not_lt hp)] at h
  cases h

/-- `takeWhile` never yields more than its input. -/
theorem takeWhile_length_le {α : Type} (p : α → Bool) (l : List α) :
    (l.takeWhile p).length ≤ l.length :=
  (List.takeWhile_sublist p).length_le

/-- The string-consumption loop never consumes more than it is given. -/
theorem stringBody_consumed_le : ∀ (cs : List Char) (line : Nat),
    (stringBody cs line).consumed ≤ cs.length := by
  intro cs
  induction cs with
  | nil => intro line; simp [stringBody]
  | cons c rest ih =>
    intro line
    by_cases hc : c = '"'
    · simp [stringBody, hc]
    · simp only [stringBody, if_neg hc, List.length_cons]
      exact Nat.succ_le_succ (ih _)

theorem scanNewline_shape {src : List Char} {s : ScanState} {r : ScanState × List Event}
    (h : scanNewline src s = some r) :
    r.1.pos = s.pos + 1 ∧ s.pos < src.length := by
  unfold scanNewline at h
  split at h
  next c hg =>
    split at h
    · cases h; exact ⟨rfl, pos_lt_of_get? hg⟩
    · cases h
  next => cases h

theorem scanWhitespace_shape {src : List Char} {s : ScanState} {r : ScanState × List Event}
    (h : scanWhitespace src s = some r) :
    r.1.pos = s.pos + 1 ∧ s.pos < src.length := by
  unfold scanWhitespace at h
  split at h
  next c hg =>
    split at h
    · cases h; exact ⟨rfl, pos_lt_of_get? hg⟩
    · cases h
  next => cases h

theorem scanComment_shape {src : List Char} {s : ScanState} {r : ScanState × List Event}
    (h : scanComment src s = some r) :
    s.pos + 2 ≤ r.1.pos ∧ r.1.pos ≤ src.length := by
  unfold scanComment at h
  split at h
  next c t heq =>
    cases h
    have h1 : ((src.drop s.pos).takeWhile (fun c => c ≠ '\n')).length
        ≤ (src.drop s.pos).length := takeWhile_length_le _ _
    have h2 : (src.drop s.pos).length = src.length - s.pos := List.length_drop _ _
    have h3 : 0 < (src.drop s.pos).length := by rw [heq]; simp
    have h4 : 2 ≤ ((src.drop s.pos).takeWhile (fun c => c ≠ '\n')).length := by
      rw [heq, List.takeWhile_cons_of_pos (by decide), List.takeWhile_cons_of_pos (by decide)]
      simp only [List.length_cons]
      omega
    constructor
    · show s.pos + 2 ≤ s.pos + ((src.drop s.pos).takeWhile (fun c => c ≠ '\n')).length
      omega
    · show s.pos + ((src.drop s.pos).takeWhile (fun c => c ≠ '\n')).length ≤ src.length
      omega
  next => cases h

theorem scanStringLiteral_shape {src : List Char} {s : ScanState} {r : ScanState × List Event}
    (h : scanStringLiteral src s = some r) :
    s.pos + 1 ≤ r.1.pos ∧ r.1.pos ≤ src.length := by
  unfold scanStringLiteral at h
  split at h
  next c hg =>
    split at h
    next hc =>
      simp only [] at h
      have hlt : s.pos < src.length := pos_lt_of_get? hg
      have hcons : (stringBody (src.drop (s.pos + 1)) s.line).consumed
          ≤ (src.drop (s.pos + 1)).length := stringBody_consumed_le _ _
      have hlen : (src.drop (s.pos + 1)).length = src.length - (s.pos + 1) :=
        List.length_drop _ _
      split at h <;> (cases h; dsimp only; constructor) <;> omega
    · cases h
  next => cases h

/-- Bounds for the final position of the number matcher. -/
theorem numEnd_bound {src : List Char} {s : ScanState} {c : Char}
    (hg : src.get? s.pos = some c) (hd : cIsDigit c = true) :
    s.pos + 1 ≤ numEnd src s ∧ numEnd src s ≤ src.length := by
  have hlt : s.pos < src.length := pos_lt_of_get? hg
  have hdrop : src.drop s.pos = c :: src.drop (s.pos + 1) := drop_eq_cons_of_get? hg
  have hip : 1 ≤ ((src.drop s.pos).takeWhile cIsDigit).length := by
    rw [hdrop, List.takeWhile_cons, if_pos hd]
    simp
  have hiple : ((src.drop s.pos).takeWhile cIsDigit).length ≤ (src.drop s.pos).length :=
    takeWhile_length_le _ _
  have hlen : (src.drop s.pos).length = src.length - s.pos := List.length_drop _ _
  have hp1a : s.pos + 1 ≤ numIntEnd src s := by unfold numIntEnd; omega
  have hp1b : numIntEnd src s ≤ src.length := by unfold numIntEnd; omega
  unfold numEnd
  split
  next hdot =>
    have hp1lt : numIntEnd src s < src.length := pos_lt_of_get? hdot.1
    have hfle : ((src.drop (numIntEnd src s + 1)).takeWhile cIsDigit).length
        ≤ (src.drop (numIntEnd src s + 1)).length := takeWhile_length_le _ _
    have hflen : (src.drop (numIntEnd src s + 1)).length
        = src.length - (numIntEnd src s + 1) := List.length_drop _ _
    omega
  next => omega

theorem scanNumberLiteral_shape {src : List Char} {s : ScanState} {r : ScanState × List Event}
    (h : scanNumberLiteral src s = some r) :
    s.pos + 1 ≤ r.1.pos ∧ r.1.pos ≤ src.length := by
  unfold scanNumberLiteral at h
  split at h
  next c hg =>
    split at h
    next hd =>
      simp only [] at h
      have hb := numEnd_bound hg hd
      split at h <;> (cases h; dsimp only; omega)
    · cases h
  next => cases h

theorem scanIdentifierOrKeyword_shape {src : List Char} {s : ScanState}
    {r : ScanState × List Event} (h : scanIdentifierOrKeyword src s = some r) :
    s.pos + 1 ≤ r.1.pos ∧ r.1.pos ≤ src.length := by
  unfold scanIdentifierOrKeyword at h
  split at h
  next c hg =>
    split at h
    next hd =>
      simp only [] at h
      have hlt : s.pos < src.length := pos_lt_of_get? hg
      have hfle : ((src.drop (s.pos + 1)).takeWhile isIdentifierPartChar).length
          ≤ (src.drop (s.pos + 1)).length := takeWhile_length_le _ _
      have hflen : (src.drop (s.pos + 1)).length = src.length - (s.pos + 1) :=
        List.length_drop _ _
      cases h
      dsimp only
      omega
    · cases h
  next => cases h

/-- The trie walk never reports a match longer than the text plus what
the accumulator already claimed. -/
theorem searchFrom_fst_le : ∀ (cs : List Char) (n : TrieNode) (i : Nat)
    (best : Nat × Option String), best.1 ≤ i + cs.length →
    (searchFrom n cs i best).1 ≤ i + cs.length := by
  intro cs
  induction cs with
  | nil => intro n i best hb; simpa [searchFrom] using hb
  | cons c rest ih =>
    intro n i best hb
    simp only [List.length_cons] at hb ⊢
    simp only [searchFrom]
    cases childLookup n.children c with
    | none => simpa using hb
    | some child =>
      have : i + (rest.length + 1) = (i + 1) + rest.length := by omega
      rw [this]
      apply ih
      by_cases ht : child.token_type.isSome
      · simp [ht]
      · simp [ht]; omega

theorem scanOperator_shape {src : List Char} {s : ScanState} {r : ScanState × List Event}
    (h : scanOperator src s = some r) :
    s.pos + 1 ≤ r.1.pos ∧ r.1.pos ≤ src.length := by
  unfold scanOperator at h
  split at h
  next hlt =>
    split at h
    next L ty heq =>
      split at h
      next hL =>
        cases h
        have hle : (OperatorTrie.searchLongestMatch operatorTrie (src.drop s.pos)).1
            ≤ (src.drop s.pos).length := by
          unfold OperatorTrie.searchLongestMatch
          have := searchFrom_fst_le (src.drop s.pos) operatorTrie.root 0 (0, none) (by simp)
          simpa using this
        rw [heq] at hle
        simp only at hle
        have hlen : (src.drop s.pos).length = src.length - s.pos := List.length_drop _ _
        dsimp only
        omega
      · cases h
    next => cases h
  next => cases h

/-- Every matcher that reports the position handled strictly advances
the offset and stays within the source. -/
theorem tryMatchers_shape {src : List Char} {s : ScanState} {r : ScanState × List Event}
    (h : tryMatchers src s = some r) :
    s.pos < r.1.pos ∧ r.1.pos ≤ src.length := by
  unfold tryMatchers at h
  cases h1 : scanNewline src s with
  | some r1 =>
    rw [h1] at h; simp only [Option.orElse] at h; cases h
    obtain ⟨ha, hb⟩ := scanNewline_shape h1
    exact ⟨by omega, by omega⟩
  | none =>
  rw [h1] at h; simp only [Option.orElse] at h
  cases h2 : scanWhitespace src s with
  | some r2 =>
    rw [h2] at h; simp only [Option.orElse] at h; cases h
    obtain ⟨ha, hb⟩ := scanWhitespace_shape h2
    exact ⟨by omega, by omega⟩
  | none =>
  rw [h2] at h; simp only [Option.orElse] at h
  cases h3 : scanComment src s with
  | some r3 =>
    rw [h3] at h; simp only [Option.orElse] at h; cases h
    obtain ⟨ha, hb⟩ := scanComment_shape h3
    exact ⟨by omega, hb⟩
  | none =>
  rw [h3] at h; simp only [Option.orElse] at h
  cases h4 : scanStringLiteral src s with
  | some r4 =>
    rw [h4] at h; simp only [Option.orElse] at h; cases h
    obtain ⟨ha, hb⟩ := scanStringLiteral_shape h4
    exact ⟨by omega, hb⟩
  | none =>
  rw [h4] at h; simp only [Option.orElse] at h
  cases h5 : scanNumberLiteral src s with
  | some r5 =>
    rw [h5] at h; simp only [Option.orElse] at h; cases h
    obtain ⟨ha, hb⟩ := scanNumberLiteral_shape h5
    exact ⟨by omega, hb⟩
  | none =>
  rw [h5] at h; simp only [Option.orElse] at h
  cases h6 : scanIdentifierOrKeyword src s with
  | some r6 =>
    rw [h6] at h; simp only [Option.orElse] at h; cases h
    obtain ⟨ha, hb⟩ := scanIdentifierOrKeyword_shape h6
    exact ⟨by omega, hb⟩
  | none =>
  rw [h6] at h; simp only [Option.orElse] at h
  obtain ⟨ha, hb⟩ := scanOperator_shape h
  exact ⟨by omega, hb⟩

/-- One driver iteration strictly advances the offset while input
remains. -/
theorem stepScan_progress {src : List Char} {s : ScanState}
    (h : s.pos < src.length) : s.pos < (stepScan src s).1.pos := by
  unfold stepScan
  cases hm : tryMatchers src s with
  | some r => exact (tryMatchers_shape hm).1
  | none => simp [h]

/-- One driver iteration keeps the offset within the source. -/
theorem stepScan_le {src : List Char} {s : ScanState}
    (h : s.pos ≤ src.length) : (stepScan src s).1.pos ≤ src.length := by
  unfold stepScan
  cases hm : tryMatchers src s with
  | some r => exact (tryMatchers_shape hm).2
  | none =>
    by_cases hlt : s.pos < src.length
    · simp [hlt]; omega
    · simp [hlt]; omega

/-- Embeds the driver loop of `Scanner::scanAndPrintTokens`
(Scanner.cpp lines 60-88; main.cpp lines 350-371): run iterations of
`stepScan` until the offset reaches the end of the source, collecting
all emitted events in order.  Totality rests on `stepScan_progress`,
the forward-progress guarantee. -/
def scanLoop (src : List Char) (s : ScanState) : ScanState × List Event :=
  if h : s.pos < src.length then
    let r := stepScan src s
    let r2 := scanLoop src r.1
    (r2.1, r.2 ++ r2.2)
  else (s, [])
termination_by src.length - s.pos
decreasing_by
  have := stepScan_progress h
  omega

theorem scanLoop_end {src : List Char} {s : ScanState} (h : ¬ s.pos < src.length) :
    scanLoop src s = (s, []) := by
  unfold scanLoop
  simp [h]

theorem scanLoop_cons {src : List Char} {s : ScanState} (h : s.pos < src.length) :
    scanLoop src s =
      ((scanLoop src (stepScan src s).1).1,
       (stepScan src s).2 ++ (scanLoop src (stepScan src s).1).2) := by
  conv => lhs; unfold scanLoop
  simp [h]

/-- The cursor state at scan start (Scanner.cpp lines 14-16; main.cpp
lines 339-340): offset 0, line 1, no error. -/
def initState : ScanState := ⟨0, 1, false⟩

/-- All events a full scan of a source buffer emits. -/
def scanEvents (src : List Char) : List Event := (scanLoop src initState).2

/-- The `Scanner` object state (Scanner.h): the borrowed source view
plus the member copies of the cursor fields that `scanAndPrintTokens`
mutates through `ScanContext`. -/
structure Scanner where
  source_view : List Char
  current_pos : Nat
  current_line : Nat
  in_error_flag : Bool
deriving DecidableEq, Repr

/-- Embeds the `Scanner` constructor (Scanner.cpp lines 14-16):
position 0, line 1, error flag false. -/
def Scanner.init (src : List Char) : Scanner := ⟨src, 0, 1, false⟩

/-- Embeds `Scanner::scanAndPrintTokens` (Scanner.cpp lines 56-90): run
the driver loop from the member cursor, persist the final cursor back
into the members, and return the emitted events and the final error
flag. -/
def Scanner.scanAndPrintTokens (sc : Scanner) : Scanner × List Event × Bool :=
  let r := scanLoop sc.source_view ⟨sc.current_pos, sc.current_line, sc.in_error_flag⟩
  (⟨sc.source_view, r.1.pos, r.1.line, r.1.errorFlag⟩, r.2, r.1.errorFlag)

/-- States of the cursor reachable during a scan of `src`: the initial
state and everything the driver iteration produces from a reachable
state while input remains. -/
inductive Reach (src : List Char) : ScanState → Prop where
  | init : Reach src initState
  | step : ∀ s, Reach src s → s.pos < src.length → Reach src (stepScan src s).1

/-- Depth of the deepest terminal node the trie walk reaches along
`cs` (the walk stops at the first missing edge), or `none` when it
passes no terminal.  Proof-side companion of `searchFrom`. -/
def maxTerm : TrieNode → List Char → Option Nat
  | _, [] => none
  | n, c :: rest =>
    match childLookup n.children c with
    | none => none
    | some child =>
      match maxTerm child rest with
      | some j => some (j + 1)
      | none => if child.token_type.isSome then some 1 else none

/-- The walk of `searchFrom` returns the accumulator unless it passes a
terminal node, in which case it returns the deepest one passed. -/
theorem searchFrom_spec : ∀ (cs : List Char) (n : TrieNode) (i : Nat)
    (best : Nat × Option String),
    searchFrom n cs i best =
      match maxTerm n cs with
      | none => best
      | some j => (i + j, kindOf n (cs.take j)) := by
  intro cs
  induction cs with
  | nil => intro n i best; simp [searchFrom, maxTerm]
  | cons c rest ih =>
    intro n i best
    simp only [searchFrom, maxTerm]
    cases hcl : childLookup n.children c with
    | none => rfl
    | some child =>
      dsimp only
      rw [ih]
      cases hmt : maxTerm child rest with
      | some j =>
        dsimp only
        have h1 : (c :: rest).take (j + 1) = c :: rest.take j := rfl
        rw [h1]
        simp only [kindOf, hcl]
        have h2 : i + 1 + j = i + (j + 1) := by omega
        rw [h2]
      | none =>
        dsimp only
        by_cases ht : child.token_type.isSome
        · rw [if_pos ht, if_pos ht]
          dsimp only
          have h1 : (c :: rest).take 1 = [c] := rfl
          rw [h1]
          simp [kindOf, hcl]
        · rw [if_neg ht, if_neg ht]

/-- When the walk passes no terminal, no nonempty path prefix of the
text ends at a terminal node. -/
theorem maxTerm_spec_none : ∀ (cs : List Char) (n : TrieNode),
    maxTerm n cs = none →
    ∀ l, 1 ≤ l → l ≤ cs.length → (kindOf n (cs.take l)).isSome = false := by
  intro cs
  induction cs with
  | nil =>
    intro n _ l h1 h2
    simp only [List.length_nil] at h2
    omega
  | cons c rest ih =>
    intro n h l h1 h2
    simp only [maxTerm] at h
    cases l with
    | zero => omega
    | succ l' =>
      have htake : (c :: rest).take (l' + 1) = c :: rest.take l' := rfl
      rw [htake]
      simp only [kindOf]
      cases hcl : childLookup n.children c with
      | none => rfl
      | some child =>
        rw [hcl] at h
        dsimp only at h
        dsimp only
        cases hmt : maxTerm child rest with
        | some j => rw [hmt] at h; simp at h
        | none =>
          rw [hmt] at h
          dsimp only at h
          by_cases ht : child.token_type.isSome
          · rw [if_pos ht] at h; cases h
          · cases l' with
            | zero =>
              simp only [List.take_zero, kindOf]
              exact Bool.eq_false_iff.mpr (fun hc => ht hc)
            | succ l'' =>
              apply ih child hmt
              · omega
              · simp only [List.length_cons] at h2; omega

/-- When the walk passes a terminal, the deepest one it records is a
nonempty terminal path prefix of the text, and is maximal among them. -/
theorem maxTerm_spec_some : ∀ (cs : List Char) (n : TrieNode) (j : Nat),
    maxTerm n cs = some j →
    1 ≤ j ∧ j ≤ cs.length ∧ (kindOf n (cs.take j)).isSome = true ∧
      ∀ l, 1 ≤ l → l ≤ cs.length → (kindOf n (cs.take l)).isSome = true → l ≤ j := by
  intro cs
  induction cs with
  | nil => intro n j h; cases h
  | cons c rest ih =>
    intro n j h
    simp only [maxTerm] at h
    cases hcl : childLookup n.children c with
    | none => rw [hcl] at h; cases h
    | some child =>
      rw [hcl] at h
      dsimp only at h
      cases hmt : maxTerm child rest with
      | some j' =>
        rw [hmt] at h
        dsimp only at h
        cases h
        obtain ⟨ha, hb, hc, hd⟩ := ih child j' hmt
        refine ⟨by omega, by simp only [List.length_cons]; omega, ?_, ?_⟩
        · have htake : (c :: rest).take (j' + 1) = c :: rest.take j' := rfl
          rw [htake]
          simp only [kindOf, hcl]
          exact hc
        · intro l h1 h2 h3
          cases l with
          | zero => omega
          | succ l' =>
            cases l' with
            | zero => omega
            | succ l'' =>
              have htake : (c :: rest).take (l'' + 1 + 1) = c :: rest.take (l'' + 1) := rfl
              rw [htake] at h3
              simp only [kindOf, hcl] at h3
              have := hd (l'' + 1) (by omega)
                (by simp only [List.length_cons] at h2; omega) h3
              omega
      | none =>
        rw [hmt] at h
        dsimp only at h
        by_cases ht : child.token_type.isSome
        · rw [if_pos ht] at h
          cases h
          refine ⟨le_refl 1, by simp, ?_, ?_⟩
          · have htake : (c :: rest).take 1 = [c] := rfl
            rw [htake]
            simp only [kindOf, hcl]
            exact ht
          · intro l h1 h2 h3
            cases l with
            | zero => omega
            | succ l' =>
              cases l' with
              | zero => omega
              | succ l'' =>
                have htake : (c :: rest).take (l'' + 1 + 1) = c :: rest.take (l'' + 1) := rfl
                rw [htake] at h3
                simp only [kindOf, hcl] at h3
                have := maxTerm_spec_none rest child hmt (l'' + 1) (by omega)
                  (by simp only [List.length_cons] at h2; omega)
                rw [this] at h3
                cases h3
        · rw [if_neg ht] at h; cases h

/-- A fresh node stores no kind along any path. -/
theorem kindOf_emptyNode : ∀ cs, kindOf emptyNode cs = none
  | [] => rfl
  | _ :: _ => rfl

theorem childLookup_updateChild_self : ∀ (l : List (Char × TrieNode)) (c : Char) (v : TrieNode),
    childLookup (updateChild l c v) c = some v := by
  intro l
  induction l with
  | nil => intro c v; simp [updateChild, childLookup]
  | cons p rest ih =>
    intro c v
    by_cases hc : p.1 = c
    · simp [updateChild, hc, childLookup]
    · simp only [updateChild]
      rw [if_neg (by exact hc)]
      simp only [childLookup]
      rw [if_neg (by exact hc)]
      exact ih c v

theorem childLookup_updateChild_other : ∀ (l : List (Char × TrieNode)) (c c' : Char)
    (v : TrieNode), c' ≠ c → childLookup (updateChild l c v) c' = childLookup l c' := by
  intro l
  induction l with
  | nil =>
    intro c c' v hne
    simp only [updateChild, childLookup]
    rw [if_neg (fun hc => hne hc.symm)]
  | cons p rest ih =>
    intro c c' v hne
    by_cases hc : p.1 = c
    · simp only [updateChild]
      rw [if_pos hc]
      simp only [childLookup]
      rw [if_neg (fun h => hne h.symm), if_neg (by rw [hc]; exact fun h => hne h.symm)]
    · simp only [updateChild]
      rw [if_neg hc]
      simp only [childLookup]
      by_cases hp : p.1 = c'
      · rw [if_pos hp, if_pos hp]
      · rw [if_neg hp, if_neg hp]
        exact ih c c' v hne

/-- Inserting a lexeme changes the stored kind exactly at that lexeme's
path. -/
theorem kindOf_insertPath : ∀ (w : List Char) (t : TrieNode) (k : String) (w' : List Char),
    kindOf (t.insertPath w k) w' = if w' = w then some k else kindOf t w' := by
  intro w
  induction w with
  | nil =>
    intro t k w'
    cases t with
    | mk tch ttt =>
      cases w' with
      | nil => simp [TrieNode.insertPath, kindOf, TrieNode.token_type]
      | cons c' cs' =>
        simp only [TrieNode.insertPath, kindOf, TrieNode.children]
        rw [if_neg (by simp)]
  | cons c cs ih =>
    intro t k w'
    cases t with
    | mk tch ttt =>
      cases w' with
      | nil =>
        simp only [TrieNode.insertPath, kindOf, TrieNode.token_type, TrieNode.children]
        rw [if_neg (by simp)]
      | cons c' cs' =>
        simp only [TrieNode.insertPath, kindOf, TrieNode.children]
        by_cases hc : c' = c
        · subst hc
          rw [childLookup_updateChild_self]
          dsimp only
          rw [ih]
          by_cases hcs : cs' = cs
          · subst hcs
            rw [if_pos rfl, if_pos rfl]
          · rw [if_neg hcs, if_neg (by simp [hcs])]
            cases hcl : childLookup tch c' with
            | none => simp [kindOf_emptyNode]
            | some child => simp
        · rw [childLookup_updateChild_other _ _ _ _ hc]
          rw [if_neg (by simp [hc])]

/-- Folding `insert` over a wrapper trie folds `insertPath` over its
root. -/
theorem buildTrie_root_aux : ∀ (pairs : List (List Char × String)) (t : OperatorTrie),
    (pairs.foldl (fun t p => t.insert p.1 p.2) t).root
      = pairs.foldl (fun n p => n.insertPath p.1 p.2) t.root := by
  intro pairs
  induction pairs with
  | nil => intro t; rfl
  | cons p ps ih => intro t; exact ih _

theorem kindOf_foldl : ∀ (pairs : List (List Char × String)) (t : TrieNode) (w : List Char),
    kindOf (pairs.foldl (fun n p => n.insertPath p.1 p.2) t) w =
      match registeredKind pairs w with
      | some k => some k
      | none => kindOf t w := by
  intro pairs
  induction pairs with
  | nil => intro t w; simp [registeredKind]
  | cons p ps ih =>
    intro t w
    simp only [List.foldl_cons, registeredKind]
    rw [ih]
    cases registeredKind ps w with
    | some k => rfl
    | none =>
      simp only
      rw [kindOf_insertPath]
      by_cases hw : p.1 = w
      · rw [if_pos hw, if_pos hw.symm]
      · rw [if_neg hw, if_neg (fun h => hw h.symm)]

/-- The kind a built trie stores at a path is exactly the kind the
insert sequence registered for that lexeme. -/
theorem kindOf_buildTrie (pairs : List (List Char × String)) (w : List Char) :
    kindOf (buildTrie pairs).root w = registeredKind pairs w := by
  unfold buildTrie
  rw [buildTrie_root_aux, kindOf_foldl]
  cases registeredKind pairs w with
  | some k => rfl
  | none => exact kindOf_emptyNode w

/-- Registration of nonempty lexemes never registers the empty one. -/
theorem registeredKind_nil_of_ne (pairs : List (List Char × String))
    (hne : ∀ p ∈ pairs, p.1 ≠ []) : registeredKind pairs [] = none := by
  induction pairs with
  | nil => rfl
  | cons p ps ih =>
    simp only [registeredKind]
    rw [ih (fun q hq => hne q (List.mem_cons_of_mem p hq))]
    rw [if_neg (hne p (List.mem_cons_self p ps))]

/-- A registered lexeme occurs in the registration list. -/
theorem registeredKind_isSome_mem : ∀ (pairs : List (List Char × String)) (w : List Char),
    (registeredKind pairs w).isSome = true → w ∈ pairs.map (fun p => p.1) := by
  intro pairs
  induction pairs with
  | nil => intro w h; cases h
  | cons p ps ih =>
    intro w h
    simp only [registeredKind] at h
    cases hr : registeredKind ps w with
    | some k => exact List.mem_cons_of_mem _ (ih w (by rw [hr]; rfl))
    | none =>
      rw [hr] at h
      by_cases hw : p.1 = w
      · simp [← hw]
      · rw [if_neg hw] at h; cases h

/-- C1 (amended: every registered lexeme is nonempty): for every set of
lexemes registered via `insert` (`buildTrie pairs` performs the
corresponding insert calls in order, later registrations of the same
lexeme overwriting earlier ones as `registeredKind` records) and every
input text, `searchLongestMatch` returns the length and the kind of the
longest registered lexeme that is a prefix of the text (the prefix of
length `l` being `text.take l`), and returns length 0 with no kind when
no registered lexeme is a prefix of the text. -/
theorem c1_searchLongestMatch_spec (pairs : List (List Char × String))
    (hne : ∀ p ∈ pairs, p.1 ≠ []) (text : List Char) :
    (∀ l, l ≤ text.length → (registeredKind pairs (text.take l)).isSome = true →
        l ≤ ((buildTrie pairs).searchLongestMatch text).1) ∧
    ((∃ l, l ≤ text.length ∧ (registeredKind pairs (text.take l)).isSome = true) →
        ((buildTrie pairs).searchLongestMatch text).1 ≤ text.length ∧
        (registeredKind pairs
            (text.take ((buildTrie pairs).searchLongestMatch text).1)).isSome = true ∧
        ((buildTrie pairs).searchLongestMatch text).2
            = registeredKind pairs
                (text.take ((buildTrie pairs).searchLongestMatch text).1)) ∧
    ((∀ l, l ≤ text.length → (registeredKind pairs (text.take l)).isSome = false) →
        (buildTrie pairs).searchLongestMatch text = (0, none)) := by
  have hko : ∀ w, kindOf (buildTrie pairs).root w = registeredKind pairs w :=
    fun w => kindOf_buildTrie pairs w
  have hnil : registeredKind pairs [] = none := registeredKind_nil_of_ne pairs hne
  have hs : (buildTrie pairs).searchLongestMatch text =
      match maxTerm (buildTrie pairs).root text with
      | none => (0, none)
      | some j => (j, kindOf (buildTrie pairs).root (text.take j)) := by
    unfold OperatorTrie.searchLongestMatch
    rw [searchFrom_spec]
    cases maxTerm (buildTrie pairs).root text with
    | none => rfl
    | some j => dsimp only; rw [Nat.zero_add]
  cases hmt : maxTerm (buildTrie pairs).root text with
  | none =>
    rw [hmt] at hs
    dsimp only at hs
    refine ⟨?_, ?_, ?_⟩
    · intro l hl hsome
      cases l with
      | zero => simp [hs]
      | succ l' =>
        have hz := maxTerm_spec_none text _ hmt (l' + 1) (by omega) hl
        rw [hko] at hz
        rw [hz] at hsome
        cases hsome
    · rintro ⟨l, hl, hsome⟩
      cases l with
      | zero => rw [List.take_zero, hnil] at hsome; cases hsome
      | succ l' =>
        have hz := maxTerm_spec_none text _ hmt (l' + 1) (by omega) hl
        rw [hko] at hz
        rw [hz] at hsome
        cases hsome
    · intro _; exact hs
  | some j =>
    rw [hmt] at hs
    dsimp only at hs
    obtain ⟨ha, hb, hc, hd⟩ := maxTerm_spec_some text _ j hmt
    rw [hko] at hc
    refine ⟨?_, ?_, ?_⟩
    · intro l hl hsome
      rw [hs]
      dsimp only
      cases l with
      | zero => exact Nat.zero_le _
      | succ l' =>
        apply hd _ (by omega) hl
        rw [hko]
        exact hsome
    · intro _
      rw [hs]
      dsimp only
      exact ⟨hb, hc, hko _⟩
    · intro hall
      have := hall j hb
      rw [hc] at this
      cases this

/-- C1 counterexample (empty lexeme): register only the empty lexeme
with kind "K".  The longest — indeed the only — registered lexeme that
is a prefix of the text "x" is "" (its length-0 prefix), with kind "K",
yet `searchLongestMatch` returns length 0 with NO kind, because the
walk records matches only after following at least one edge.  So the
claim as stated fails for this set of registered lexemes. -/
theorem c1_counterexample :
    registeredKind [(([] : List Char), "K")] (['x'].take 0) = some "K" ∧
    (registeredKind [(([] : List Char), "K")] (['x'].take 1)).isSome = false ∧
    (buildTrie [(([] : List Char), "K")]).searchLongestMatch ['x'] = (0, none) :=
  ⟨rfl, rfl, rfl⟩

/-- C1 witness: the amended theorem applied to the scanner's actual 19
operator registrations (all nonempty) and the text "==<". -/
theorem c1_witness :
    (∀ p ∈ opPairs, p.1 ≠ []) ∧
    ((∀ l, l ≤ ("==<".toList).length →
        (registeredKind opPairs (("==<".toList).take l)).isSome = true →
        l ≤ ((buildTrie opPairs).searchLongestMatch "==<".toList).1) ∧
    ((∃ l, l ≤ ("==<".toList).length ∧
        (registeredKind opPairs (("==<".toList).take l)).isSome = true) →
        ((buildTrie opPairs).searchLongestMatch "==<".toList).1 ≤ ("==<".toList).length ∧
        (registeredKind opPairs
            (("==<".toList).take
              ((buildTrie opPairs).searchLongestMatch "==<".toList).1)).isSome = true ∧
        ((buildTrie opPairs).searchLongestMatch "==<".toList).2
            = registeredKind opPairs
                (("==<".toList).take
                  ((buildTrie opPairs).searchLongestMatch "==<".toList).1)) ∧
    ((∀ l, l ≤ ("==<".toList).length →
        (registeredKind opPairs (("==<".toList).take l)).isSome = false) →
        (buildTrie opPairs).searchLongestMatch "==<".toList = (0, none))) :=
  ⟨by decide, c1_searchLongestMatch_spec opPairs (by decide) "==<".toList⟩

theorem cIsDigit_toNat {c : Char} (h : cIsDigit c = true) : 48 ≤ c.toNat ∧ c.toNat ≤ 57 := by
  simpa [cIsDigit] using h

/-- An ASCII digit is none of the characters the earlier matchers react
to, and cannot start an identifier. -/
theorem digit_char_facts {c : Char} (h : cIsDigit c = true) :
    c ≠ '\n' ∧ cIsSpace c = false ∧ c ≠ '/' ∧ c ≠ '"' ∧
      isIdentifierStartChar c = false := by
  obtain ⟨h1, h2⟩ := cIsDigit_toNat h
  refine ⟨?_, ?_, ?_, ?_, ?_⟩
  · intro he
    have : ('\n' : Char).toNat = 10 := rfl
    rw [he] at h1
    omega
  · cases hs : cIsSpace c
    · rfl
    · exfalso
      simp [cIsSpace] at hs
      omega
  · intro he
    have : ('/' : Char).toNat = 47 := rfl
    rw [he] at h1
    omega
  · intro he
    have : ('"' : Char).toNat = 34 := rfl
    rw [he] at h1
    omega
  · cases hs : isIdentifierStartChar c
    · rfl
    · exfalso
      simp [isIdentifierStartChar, cIsAlpha] at hs
      rcases hs with (hs | hs) | hs
      · omega
      · omega
      · rw [hs] at h2
        have : ('_' : Char).toNat = 95 := rfl
        omega

theorem scanNewline_none {src : List Char} {s : ScanState} {c : Char}
    (hg : src.get? s.pos = some c) (hc : c ≠ '\n') : scanNewline src s = none := by
  unfold scanNewline
  rw [hg]
  simp [hc]

theorem scanWhitespace_none {src : List Char} {s : ScanState} {c : Char}
    (hg : src.get? s.pos = some c) (hc : cIsSpace c = false) : scanWhitespace src s = none := by
  unfold scanWhitespace
  rw [hg]
  simp [hc]

theorem scanComment_none {src : List Char} {s : ScanState} {c : Char}
    (hg : src.get? s.pos = some c) (hc : c ≠ '/') : scanComment src s = none := by
  unfold scanComment
  rw [drop_eq_cons_of_get? hg]
  split
  next heq =>
    exfalso
    apply hc
    injection heq with h1 _
  next => rfl

theorem scanStringLiteral_none {src : List Char} {s : ScanState} {c : Char}
    (hg : src.get? s.pos = some c) (hc : c ≠ '"') : scanStringLiteral src s = none := by
  unfold scanStringLiteral
  rw [hg]
  simp [hc]

theorem scanNumberLiteral_none {src : List Char} {s : ScanState} {c : Char}
    (hg : src.get? s.pos = some c) (hc : cIsDigit c = false) :
    scanNumberLiteral src s = none := by
  unfold scanNumberLiteral
  rw [hg]
  simp [hc]

theorem scanIdentifierOrKeyword_none {src : List Char} {s : ScanState} {c : Char}
    (hg : src.get? s.pos = some c) (hc : isIdentifierStartChar c = false) :
    scanIdentifierOrKeyword src s = none := by
  unfold scanIdentifierOrKeyword
  rw [hg]
  simp [hc]

/-- The pipeline selects the string matcher when the first three
matchers decline and it fires. -/
theorem tryMatchers_string {src : List Char} {s : ScanState} {r : ScanState × List Event}
    (h1 : scanNewline src s = none) (h2 : scanWhitespace src s = none)
    (h3 : scanComment src s = none) (h4 : scanStringLiteral src s = some r) :
    tryMatchers src s = some r := by
  unfold tryMatchers
  rw [h1]; simp only [Option.orElse]
  rw [h2]; simp only [Option.orElse]
  rw [h3]; simp only [Option.orElse]
  rw [h4]

/-- The pipeline selects the number matcher when the first four
matchers decline and it fires. -/
theorem tryMatchers_number {src : List Char} {s : ScanState} {r : ScanState × List Event}
    (h1 : scanNewline src s = none) (h2 : scanWhitespace src s = none)
    (h3 : scanComment src s = none) (h4 : scanStringLiteral src s = none)
    (h5 : scanNumberLiteral src s = some r) :
    tryMatchers src s = some r := by
  unfold tryMatchers
  rw [h1]; simp only [Option.orElse]
  rw [h2]; simp only [Option.orElse]
  rw [h3]; simp only [Option.orElse]
  rw [h4]; simp only [Option.orElse]
  rw [h5]

/-- The pipeline selects the operator matcher when the first six
matchers decline and it fires. -/
theorem tryMatchers_operator {src : List Char} {s : ScanState} {r : ScanState × List Event}
    (h1 : scanNewline src s = none) (h2 : scanWhitespace src s = none)
    (h3 : scanComment src s = none) (h4 : scanStringLiteral src s = none)
    (h5 : scanNumberLiteral src s = none) (h6 : scanIdentifierOrKeyword src s = none)
    (h7 : scanOperator src s = some r) :
    tryMatchers src s = some r := by
  unfold tryMatchers
  rw [h1]; simp only [Option.orElse]
  rw [h2]; simp only [Option.orElse]
  rw [h3]; simp only [Option.orElse]
  rw [h4]; simp only [Option.orElse]
  rw [h5]; simp only [Option.orElse]
  rw [h6]; simp only [Option.orElse]
  rw [h7]

theorem stepScan_of_matched {src : List Char} {s : ScanState} {r : ScanState × List Event}
    (h : tryMatchers src s = some r) : stepScan src s = r := by
  unfold stepScan
  rw [h]

theorem countNewlines_append : ∀ (a b : List Char),
    countNewlines (a ++ b) = countNewlines a + countNewlines b := by
  intro a b
  induction a with
  | nil => simp [countNewlines]
  | cons c cs ih =>
    simp only [List.cons_append, countNewlines, List.append_eq]
    rw [ih]
    omega

theorem countNewlines_eq_zero : ∀ {l : List Char}, (∀ c ∈ l, c ≠ '\n') →
    countNewlines l = 0 := by
  intro l
  induction l with
  | nil => intro _; rfl
  | cons c cs ih =>
    intro h
    simp only [countNewlines]
    rw [if_neg (h c (List.mem_cons_self c cs)), ih (fun x hx => h x (List.mem_cons_of_mem c hx))]

/-- Splitting a prefix count at an intermediate offset. -/
theorem countNewlines_take_add (src : List Char) (p k : Nat) :
    countNewlines (src.take (p + k))
      = countNewlines (src.take p) + countNewlines ((src.drop p).take k) := by
  rw [List.take_add, countNewlines_append]

theorem takeWhile_all {α : Type} {p : α → Bool} : ∀ {l : List α},
    (∀ x ∈ l, p x = true) → l.takeWhile p = l := by
  intro l
  induction l with
  | nil => intro _; rfl
  | cons c cs ih =>
    intro h
    rw [List.takeWhile_cons_of_pos (h c (List.mem_cons_self c cs))]
    rw [ih (fun x hx => h x (List.mem_cons_of_mem c hx))]

theorem mem_takeWhile_pred {α : Type} {p : α → Bool} : ∀ {l : List α} {x : α},
    x ∈ l.takeWhile p → p x = true := by
  intro l
  induction l with
  | nil => intro x h; cases h
  | cons c cs ih =>
    intro x h
    by_cases hc : p c = true
    · rw [List.takeWhile_cons_of_pos hc] at h
      cases h with
      | head => exact hc
      | tail _ h' => exact ih h'
    · rw [List.takeWhile_cons_of_neg (by simpa using hc)] at h
      cases h

/-- Line accounting for the string-consumption loop: the final line is
the starting line plus the newlines among the consumed characters. -/
theorem stringBody_line : ∀ (cs : List Char) (line : Nat),
    (stringBody cs line).line = line + countNewlines (cs.take (stringBody cs line).consumed) := by
  intro cs
  induction cs with
  | nil => intro line; simp [stringBody, countNewlines]
  | cons c rest ih =>
    intro line
    by_cases hc : c = '"'
    · simp [stringBody, hc, countNewlines]
    · simp only [stringBody, if_neg hc]
      have htake : (c :: rest).take ((stringBody rest
          (if c = '\n' then line + 1 else line)).consumed + 1)
          = c :: rest.take (stringBody rest (if c = '\n' then line + 1 else line)).consumed :=
        rfl
      rw [htake]
      simp only [countNewlines]
      rw [ih]
      by_cases hn : c = '\n'
      · rw [if_pos hn, if_pos hn]
        omega
      · rw [if_neg hn, if_neg hn]
        omega

/-- With no quote among the characters, the string loop consumes
everything and stays unterminated. -/
theorem stringBody_no_quote : ∀ (cs : List Char) (line : Nat), ('"' ∉ cs) →
    stringBody cs line = ⟨false, cs, cs.length, line + countNewlines cs⟩ := by
  intro cs
  induction cs with
  | nil => intro line _; simp [stringBody, countNewlines]
  | cons c rest ih =>
    intro line h
    have hc : c ≠ '"' := fun he => h (he ▸ List.mem_cons_self c rest)
    simp only [stringBody, if_neg hc]
    rw [ih _ (fun hm => h (List.mem_cons_of_mem c hm))]
    simp only [List.length_cons, countNewlines]
    by_cases hn : c = '\n'
    · rw [if_pos hn, if_pos hn]
      have harith : line + 1 + countNewlines rest = line + (1 + countNewlines rest) := by
        omega
      rw [harith]
    · rw [if_neg hn, if_neg hn]
      have harith : line + countNewlines rest = line + (0 + countNewlines rest) := by
        omega
      rw [harith]

/-- With no quote in `s`, the string loop stops exactly at the first
quote after `s`, consuming it, with literal `s`. -/
theorem stringBody_clean : ∀ (s : List Char) (rest : List Char) (line : Nat), ('"' ∉ s) →
    stringBody (s ++ '"' :: rest) line
      = ⟨true, s, s.length + 1, line + countNewlines s⟩ := by
  intro s
  induction s with
  | nil => intro rest line _; simp [stringBody, countNewlines]
  | cons c cs ih =>
    intro rest line h
    have hc : c ≠ '"' := fun he => h (he ▸ List.mem_cons_self c cs)
    have hstep : (c :: cs) ++ '"' :: rest = c :: (cs ++ '"' :: rest) := rfl
    rw [hstep]
    simp only [stringBody, if_neg hc]
    rw [ih rest (if c = '\n' then line + 1 else line)
      (fun hm => h (List.mem_cons_of_mem c hm))]
    simp only [List.length_cons, countNewlines]
    by_cases hn : c = '\n'
    · rw [if_pos hn, if_pos hn]
      have harith : line + 1 + countNewlines cs = line + (1 + countNewlines cs) := by
        omega
      rw [harith]
    · rw [if_neg hn, if_neg hn]
      have harith : line + countNewlines cs = line + (0 + countNewlines cs) := by
        omega
      rw [harith]

/-- C6: whenever the driver is at a position that no matcher in the
pipeline handles, it reports an unexpected-character error tagged with
the current line and the single character at the current offset, sets
the error flag, and advances the offset by exactly one; the scan then
continues from the next position (the driver neither stalls nor
aborts). -/
theorem c6_unexpected_character (src : List Char) (s : ScanState) (c : Char)
    (hm : tryMatchers src s = none) (hc : src.get? s.pos = some c) :
    stepScan src s
        = ({ s with errorFlag := true, pos := s.pos + 1 },
           [Event.error (ScanError.unexpectedChar s.line c)]) ∧
    scanLoop src s
        = ((scanLoop src { s with errorFlag := true, pos := s.pos + 1 }).1,
           Event.error (ScanError.unexpectedChar s.line c)
             :: (scanLoop src { s with errorFlag := true, pos := s.pos + 1 }).2) := by
  have hlt : s.pos < src.length := pos_lt_of_get? hc
  have hget : src.get ⟨s.pos, hlt⟩ = c := by
    obtain ⟨h', hg⟩ := List.get?_eq_some.mp hc
    exact hg
  have hstep : stepScan src s
      = ({ s with errorFlag := true, pos := s.pos + 1 },
         [Event.error (ScanError.unexpectedChar s.line c)]) := by
    unfold stepScan
    rw [hm]
    dsimp only
    rw [dif_pos hlt, hget]
  refine ⟨hstep, ?_⟩
  rw [scanLoop_cons hlt, hstep]
  simp

/-- C6 witness: the theorem applied to the input "@" at the initial
state. -/
theorem c6_witness :
    tryMatchers "@".toList initState = none ∧
    ("@".toList).get? initState.pos = some '@' ∧
    (stepScan "@".toList initState
        = ({ initState with errorFlag := true, pos := initState.pos + 1 },
           [Event.error (ScanError.unexpectedChar initState.line '@')]) ∧
     scanLoop "@".toList initState
        = ((scanLoop "@".toList ({ initState with errorFlag := true, pos := initState.pos + 1 })).1,
           Event.error (ScanError.unexpectedChar initState.line '@')
             :: (scanLoop "@".toList ({ initState with errorFlag := true, pos := initState.pos + 1 })).2)) :=
  ⟨by decide, by decide, c6_unexpected_character _ _ _ (by decide) (by decide)⟩

/-- C3: at a position holding an opening quote with no closing quote
anywhere after it, the scan emits no STRING token — its full remaining
event output is exactly one unterminated-string error — the error is
tagged with the line of the opening quote (while the line counter still
advances once per newline embedded in the unterminated string), the
error flag is set, and the offset advances to the end of input, so the
scan terminates. -/
theorem c3_unterminated_string (src : List Char) (s : ScanState)
    (hq : src.get? s.pos = some '"') (hnq : '"' ∉ src.drop (s.pos + 1)) :
    scanLoop src s
      = ({ pos := src.length, line := s.line + countNewlines (src.drop (s.pos + 1)),
           errorFlag := true },
         [Event.error (ScanError.unterminatedString s.line)]) := by
  have hlt : s.pos < src.length := pos_lt_of_get? hq
  have hpos : s.pos + 1 + (src.drop (s.pos + 1)).length = src.length := by
    have := List.length_drop (s.pos + 1) src
    omega
  have hsb := stringBody_no_quote (src.drop (s.pos + 1)) s.line hnq
  have hstr : scanStringLiteral src s = some
      ({ pos := s.pos + 1 + (src.drop (s.pos + 1)).length,
         line := s.line + countNewlines (src.drop (s.pos + 1)), errorFlag := true },
       [Event.error (ScanError.unterminatedString s.line)]) := by
    unfold scanStringLiteral
    rw [hq]
    simp [hsb]
  rw [hpos] at hstr
  have htm := tryMatchers_string (scanNewline_none hq (by decide))
    (scanWhitespace_none hq (by decide)) (scanComment_none hq (by decide)) hstr
  have hstep := stepScan_of_matched htm
  rw [scanLoop_cons hlt, hstep]
  rw [scanLoop_end (by dsimp only; omega)]
  simp

/-- C3 witness: the theorem applied to the input `"ab<newline>c` — an
unterminated string opened on line 1 containing one embedded newline:
the error is tagged line 1, the final line counter is 2, the flag is
set and the offset reaches the end of input. -/
theorem c3_witness :
    ("\"ab\nc".toList).get? initState.pos = some '"' ∧
    ('"' ∉ ("\"ab\nc".toList).drop (initState.pos + 1)) ∧
    scanLoop "\"ab\nc".toList initState
      = ({ pos := ("\"ab\nc".toList).length,
           line := initState.line + countNewlines (("\"ab\nc".toList).drop (initState.pos + 1)),
           errorFlag := true },
         [Event.error (ScanError.unterminatedString initState.line)]) :=
  ⟨by decide, by decide, c3_unterminated_string _ _ (by decide) (by decide)⟩

/-- C8: for every string `str` containing no double quote and no
newline, scanning the input consisting of `str` enclosed in double
quotes yields exactly one STRING token whose literal is exactly `str`
(no escape processing) and whose lexeme is the full quoted slice
including both quote characters, with no error event emitted and the
error flag left false. -/
theorem c8_string_token (str : List Char) (h1 : '"' ∉ str) (h2 : '\n' ∉ str) :
    scanLoop ('"' :: str ++ ['"']) initState
      = ({ pos := ('"' :: str ++ ['"']).length, line := 1, errorFlag := false },
         [Event.token "STRING" ('"' :: str ++ ['"']) (some str)]) := by
  have hcn : countNewlines str = 0 :=
    countNewlines_eq_zero (fun c hc he => h2 (he ▸ hc))
  have hq : ('"' :: str ++ ['"']).get? initState.pos = some '"' := rfl
  have hsb : stringBody (str ++ ['"']) 1 = ⟨true, str, str.length + 1, 1⟩ := by
    have hc := stringBody_clean str [] 1 h1
    rw [hcn, Nat.add_zero] at hc
    exact hc
  have hlen : ('"' :: str ++ ['"']).length = str.length + 2 := by
    simp
  have htake : List.take (1 + (str.length + 1)) ('"' :: (str ++ ['"']))
      = '"' :: (str ++ ['"']) := by
    have hcount : 1 + (str.length + 1) = ('"' :: (str ++ ['"'])).length := by
      rw [show ('"' :: (str ++ ['"'])).length = str.length + 2 from by simp]
      omega
    rw [hcount]
    exact List.take_length _
  have hstr : scanStringLiteral ('"' :: str ++ ['"']) initState = some
      ({ pos := initState.pos + 1 + (str.length + 1), line := 1, errorFlag := false },
       [Event.token "STRING" ('"' :: str ++ ['"']) (some str)]) := by
    unfold scanStringLiteral
    rw [hq]
    simp [hsb, htake, initState]
  have htm := tryMatchers_string (scanNewline_none hq (by decide))
    (scanWhitespace_none hq (by decide)) (scanComment_none hq (by decide)) hstr
  have hstep := stepScan_of_matched htm
  have hlt : initState.pos < ('"' :: str ++ ['"']).length := by
    rw [hlen]
    show 0 < str.length + 2
    omega
  rw [scanLoop_cons hlt, hstep]
  rw [scanLoop_end (by dsimp only; rw [hlen]; omega)]
  dsimp only
  rw [List.append_nil]
  rw [show initState.pos + 1 + (str.length + 1) = ('"' :: str ++ ['"']).length by
    rw [hlen]; show 0 + 1 + (str.length + 1) = str.length + 2; omega]

/-- C8 witness: the theorem applied to `str = "ab"`, scanning `"ab"`
(with quotes). -/
theorem c8_witness :
    ('"' ∉ "ab".toList) ∧ ('\n' ∉ "ab".toList) ∧
    scanLoop ('"' :: "ab".toList ++ ['"']) initState
      = ({ pos := ('"' :: "ab".toList ++ ['"']).length, line := 1, errorFlag := false },
         [Event.token "STRING" ('"' :: "ab".toList ++ ['"']) (some "ab".toList)]) :=
  ⟨by decide, by decide, c8_string_token "ab".toList (by decide) (by decide)⟩

/-- C2: for every pair of registered operator lexemes `a` and `b` with
`a` a proper prefix of `b` (such as `=` / `==` or `!` / `!=`), scanning
an input that begins with `b` makes the driver's first step emit a
single operator token of `b`'s kind whose lexeme covers all of `b`
(never a token for `a` followed by a token for the remainder), and the
rest of the scan continues after `b`. -/
theorem c2_longest_operator_wins (a b : List Char) (ka kb : String)
    (ha : registeredKind opPairs a = some ka)
    (hb : registeredKind opPairs b = some kb)
    (hpp : ∃ c cs, b = a ++ c :: cs)
    (rest : List Char) (line : Nat) (flag : Bool) :
    stepScan (b ++ rest) ⟨0, line, flag⟩
        = (⟨b.length, line, flag⟩, [Event.token kb b none]) ∧
    scanLoop (b ++ rest) ⟨0, line, flag⟩
        = ((scanLoop (b ++ rest) ⟨b.length, line, flag⟩).1,
           Event.token kb b none :: (scanLoop (b ++ rest) ⟨b.length, line, flag⟩).2) := by
  have hamem : a ∈ opPairs.map (fun p => p.1) :=
    registeredKind_isSome_mem _ _ (by rw [ha]; rfl)
  have hbmem : b ∈ opPairs.map (fun p => p.1) :=
    registeredKind_isSome_mem _ _ (by rw [hb]; rfl)
  have hane : a ≠ [] := by
    have hall : ∀ w ∈ opPairs.map (fun p => p.1), w ≠ [] := by decide
    exact hall a hamem
  obtain ⟨c, cs, hbe⟩ := hpp
  have hblen : 2 ≤ b.length := by
    rw [hbe]
    have h1 : 1 ≤ a.length := by
      cases a with
      | nil => exact absurd rfl hane
      | cons x xs => simp
    simp [List.length_append]
    omega
  simp only [opPairs, List.map_cons, List.map_nil, List.mem_cons,
    List.not_mem_nil, or_false] at hbmem
  rcases hbmem with h | h | h | h | h | h | h | h | h | h | h | h | h | h | h | h | h | h | h <;>
    subst h <;>
    try (exfalso; revert hblen; decide)
  · have hkbe : registeredKind opPairs "==".toList = some "EQUAL_EQUAL" := by decide
    rw [hkbe] at hb
    injection hb with hkb
    subst hkb
    have hstep : stepScan ("==".toList ++ rest) ⟨0, line, flag⟩
        = (⟨("==".toList).length, line, flag⟩,
           [Event.token "EQUAL_EQUAL" "==".toList none]) := by
      cases rest with
      | nil => rfl
      | cons c' r' => rfl
    refine ⟨hstep, ?_⟩
    have hlt : (⟨0, line, flag⟩ : ScanState).pos < ("==".toList ++ rest).length := by
      simp
    rw [scanLoop_cons hlt, hstep]
    simp
  · have hkbe : registeredKind opPairs "!=".toList = some "BANG_EQUAL" := by decide
    rw [hkbe] at hb
    injection hb with hkb
    subst hkb
    have hstep : stepScan ("!=".toList ++ rest) ⟨0, line, flag⟩
        = (⟨("!=".toList).length, line, flag⟩,
           [Event.token "BANG_EQUAL" "!=".toList none]) := by
      cases rest with
      | nil => rfl
      | cons c' r' => rfl
    refine ⟨hstep, ?_⟩
    have hlt : (⟨0, line, flag⟩ : ScanState).pos < ("!=".toList ++ rest).length := by
      simp
    rw [scanLoop_cons hlt, hstep]
    simp
  · have hkbe : registeredKind opPairs "<=".toList = some "LESS_EQUAL" := by decide
    rw [hkbe] at hb
    injection hb with hkb
    subst hkb
    have hstep : stepScan ("<=".toList ++ rest) ⟨0, line, flag⟩
        = (⟨("<=".toList).length, line, flag⟩,
           [Event.token "LESS_EQUAL" "<=".toList none]) := by
      cases rest with
      | nil => rfl
      | cons c' r' => rfl
    refine ⟨hstep, ?_⟩
    have hlt : (⟨0, line, flag⟩ : ScanState).pos < ("<=".toList ++ rest).length := by
      simp
    rw [scanLoop_cons hlt, hstep]
    simp
  · have hkbe : registeredKind opPairs ">=".toList = some "GREATER_EQUAL" := by decide
    rw [hkbe] at hb
    injection hb with hkb
    subst hkb
    have hstep : stepScan (">=".toList ++ rest) ⟨0, line, flag⟩
        = (⟨(">=".toList).length, line, flag⟩,
           [Event.token "GREATER_EQUAL" ">=".toList none]) := by
      cases rest with
      | nil => rfl
      | cons c' r' => rfl
    refine ⟨hstep, ?_⟩
    have hlt : (⟨0, line, flag⟩ : ScanState).pos < (">=".toList ++ rest).length := by
      simp
    rw [scanLoop_cons hlt, hstep]
    simp

/-- C2 witness: the theorem applied to the registered pair `=` / `==`
on the input "==1": one EQUAL_EQUAL token covering both characters. -/
theorem c2_witness :
    registeredKind opPairs "=".toList = some "EQUAL" ∧
    registeredKind opPairs "==".toList = some "EQUAL_EQUAL" ∧
    (∃ c cs, "==".toList = "=".toList ++ c :: cs) ∧
    (stepScan ("==".toList ++ "1".toList) ⟨0, 1, false⟩
        = (⟨("==".toList).length, 1, false⟩, [Event.token "EQUAL_EQUAL" "==".toList none]) ∧
     scanLoop ("==".toList ++ "1".toList) ⟨0, 1, false⟩
        = ((scanLoop ("==".toList ++ "1".toList) ⟨("==".toList).length, 1, false⟩).1,
           Event.token "EQUAL_EQUAL" "==".toList none
             :: (scanLoop ("==".toList ++ "1".toList) ⟨("==".toList).length, 1, false⟩).2)) :=
  ⟨by decide, by decide, ⟨'=', [], rfl⟩,
   c2_longest_operator_wins "=".toList "==".toList "EQUAL" "EQUAL_EQUAL"
     (by decide) (by decide) ⟨'=', [], rfl⟩ "1".toList 1 false⟩

theorem take_takeWhile_length {α : Type} (p : α → Bool) (l : List α) :
    l.take (l.takeWhile p).length = l.takeWhile p := by
  have h := List.take_left (l.takeWhile p) (l.dropWhile p)
  rwa [List.takeWhile_append_dropWhile] at h

theorem drop_takeWhile_length {α : Type} (p : α → Bool) (l : List α) :
    l.drop (l.takeWhile p).length = l.dropWhile p := by
  have h := List.drop_left (l.takeWhile p) (l.dropWhile p)
  rwa [List.takeWhile_append_dropWhile] at h

theorem take_append_len {α : Type} : ∀ (a : List α) (b : List α) (k : Nat),
    (a ++ b).take (a.length + k) = a ++ b.take k := by
  intro a
  induction a with
  | nil => intro b k; simp
  | cons x xs ih =>
    intro b k
    have harith : (x :: xs).length + k = (xs.length + k) + 1 := by
      simp only [List.length_cons]
      omega
    rw [harith]
    simp only [List.cons_append, List.take_succ_cons]
    rw [ih]

/-- When the fractional-part condition fails, the number matcher's
segment is exactly the leading digit run. -/
theorem num_segment_no_dot {src : List Char} {s : ScanState}
    (hnd : ¬ (src.get? (numIntEnd src s) = some '.' ∧
        (src.get? (numIntEnd src s + 1)).any cIsDigit = true)) :
    numEnd src s = numIntEnd src s ∧
    (src.drop s.pos).take (numEnd src s - s.pos) = (src.drop s.pos).takeWhile cIsDigit := by
  have he : numEnd src s = numIntEnd src s := by
    unfold numEnd
    rw [if_neg hnd]
  refine ⟨he, ?_⟩
  rw [he]
  have harith : numIntEnd src s - s.pos = ((src.drop s.pos).takeWhile cIsDigit).length := by
    unfold numIntEnd
    omega
  rw [harith]
  exact take_takeWhile_length _ _

/-- When the fractional-part condition holds, the number matcher's
segment is the digit run, the dot, and the second digit run. -/
theorem num_segment_dot {src : List Char} {s : ScanState}
    (hdot : src.get? (numIntEnd src s) = some '.' ∧
        (src.get? (numIntEnd src s + 1)).any cIsDigit = true) :
    numEnd src s = numIntEnd src s + 1
        + ((src.drop (numIntEnd src s + 1)).takeWhile cIsDigit).length ∧
    (src.drop s.pos).take (numEnd src s - s.pos)
      = (src.drop s.pos).takeWhile cIsDigit
          ++ '.' :: (src.drop (numIntEnd src s + 1)).takeWhile cIsDigit := by
  have he : numEnd src s = numIntEnd src s + 1
      + ((src.drop (numIntEnd src s + 1)).takeWhile cIsDigit).length := by
    unfold numEnd
    rw [if_pos hdot]
  refine ⟨he, ?_⟩
  have hdw : (src.drop s.pos).dropWhile cIsDigit = src.drop (numIntEnd src s) := by
    rw [← drop_takeWhile_length cIsDigit (src.drop s.pos)]
    rw [List.drop_drop]
    unfold numIntEnd
    rw [Nat.add_comm]
  have hsplit : src.drop s.pos = (src.drop s.pos).takeWhile cIsDigit
      ++ '.' :: src.drop (numIntEnd src s + 1) := by
    conv => lhs; rw [← List.takeWhile_append_dropWhile (p := cIsDigit) (l := src.drop s.pos)]
    rw [hdw, drop_eq_cons_of_get? hdot.1]
  have harith : numEnd src s - s.pos = ((src.drop s.pos).takeWhile cIsDigit).length
      + (1 + ((src.drop (numIntEnd src s + 1)).takeWhile cIsDigit).length) := by
    rw [he]
    unfold numIntEnd
    omega
  rw [harith]
  nth_rewrite 2 [hsplit]
  rw [take_append_len]
  congr 1
  rw [Nat.add_comm 1 ((src.drop (numIntEnd src s + 1)).takeWhile cIsDigit).length]
  rw [List.take_succ_cons]
  congr 1
  exact take_takeWhile_length _ _

theorem identStart_ne_newline {c : Char} (h : isIdentifierStartChar c = true) : c ≠ '\n' := by
  intro he
  subst he
  simp [isIdentifierStartChar, cIsAlpha] at h

theorem identPart_ne_newline {c : Char} (h : isIdentifierPartChar c = true) : c ≠ '\n' := by
  intro he
  subst he
  simp [isIdentifierPartChar, cIsAlnum, cIsAlpha, cIsDigit] at h

/-- The trie match of a fired operator matcher is a registered lexeme. -/
theorem scanOperator_registered {src : List Char} {s : ScanState} {r : ScanState × List Event}
    (h : scanOperator src s = some r) :
    ∃ L ty, 0 < L ∧
      r = ({ s with pos := s.pos + L }, [Event.token ty ((src.drop s.pos).take L) none]) ∧
      (registeredKind opPairs ((src.drop s.pos).take L)).isSome = true := by
  unfold scanOperator at h
  split at h
  next hlt =>
    split at h
    next L ty heq =>
      split at h
      next hL =>
        cases h
        refine ⟨L, ty, hL, rfl, ?_⟩
        have hspec : OperatorTrie.searchLongestMatch operatorTrie (src.drop s.pos)
            = match maxTerm operatorTrie.root (src.drop s.pos) with
              | none => (0, none)
              | some j => (j, kindOf operatorTrie.root ((src.drop s.pos).take j)) := by
          unfold OperatorTrie.searchLongestMatch
          rw [searchFrom_spec]
          cases maxTerm operatorTrie.root (src.drop s.pos) with
          | none => rfl
          | some j => dsimp only; rw [Nat.zero_add]
        rw [heq] at hspec
        cases hmt : maxTerm operatorTrie.root (src.drop s.pos) with
        | none =>
          rw [hmt] at hspec
          dsimp only at hspec
          exact absurd hspec.symm (by simp)
        | some j =>
          rw [hmt] at hspec
          dsimp only at hspec
          have hj : L = j := congrArg Prod.fst hspec
          have hk : (some ty : Option String)
              = kindOf operatorTrie.root ((src.drop s.pos).take j) :=
            congrArg Prod.snd hspec
          subst hj
          have : kindOf (buildTrie opPairs).root ((src.drop s.pos).take L)
              = registeredKind opPairs ((src.drop s.pos).take L) :=
            kindOf_buildTrie opPairs _
          rw [show operatorTrie = buildTrie opPairs from rfl] at hk
          rw [this] at hk
          rw [← hk]
          rfl
      · cases h
    next => cases h
  next => cases h

theorem scanNewline_inv {src : List Char} {s : ScanState} {r : ScanState × List Event}
    (h : scanNewline src s = some r) :
    r.1.line = s.line + countNewlines ((src.drop s.pos).take (r.1.pos - s.pos)) ∧
    (s.errorFlag = true → r.1.errorFlag = true) := by
  unfold scanNewline at h
  split at h
  next c hg =>
    split at h
    next hc =>
      cases h
      subst hc
      refine ⟨?_, fun hf => hf⟩
      dsimp only
      have harith : s.pos + 1 - s.pos = 1 := by omega
      rw [harith, drop_eq_cons_of_get? hg]
      simp [countNewlines]
    · cases h
  next => cases h

theorem scanWhitespace_inv {src : List Char} {s : ScanState} {r : ScanState × List Event}
    (h : scanWhitespace src s = some r) :
    r.1.line = s.line + countNewlines ((src.drop s.pos).take (r.1.pos - s.pos)) ∧
    (s.errorFlag = true → r.1.errorFlag = true) := by
  unfold scanWhitespace at h
  split at h
  next c hg =>
    split at h
    next hc =>
      cases h
      refine ⟨?_, fun hf => hf⟩
      dsimp only
      have harith : s.pos + 1 - s.pos = 1 := by omega
      rw [harith, drop_eq_cons_of_get? hg]
      simp [countNewlines, hc.1]
    · cases h
  next => cases h

theorem scanComment_inv {src : List Char} {s : ScanState} {r : ScanState × List Event}
    (h : scanComment src s = some r) :
    r.1.line = s.line + countNewlines ((src.drop s.pos).take (r.1.pos - s.pos)) ∧
    (s.errorFlag = true → r.1.errorFlag = true) := by
  unfold scanComment at h
  split at h
  next c t heq =>
    cases h
    refine ⟨?_, fun hf => hf⟩
    dsimp only
    have harith : s.pos + ((src.drop s.pos).takeWhile (fun c => c ≠ '\n')).length - s.pos
        = ((src.drop s.pos).takeWhile (fun c => c ≠ '\n')).length := by omega
    rw [harith, take_takeWhile_length]
    have hz : countNewlines ((src.drop s.pos).takeWhile (fun c => c ≠ '\n')) = 0 := by
      apply countNewlines_eq_zero
      intro x hx
      have := mem_takeWhile_pred hx
      simpa using this
    omega
  next => cases h

theorem scanStringLiteral_inv {src : List Char} {s : ScanState} {r : ScanState × List Event}
    (h : scanStringLiteral src s = some r) :
    r.1.line = s.line + countNewlines ((src.drop s.pos).take (r.1.pos - s.pos)) ∧
    (s.errorFlag = true → r.1.errorFlag = true) := by
  unfold scanStringLiteral at h
  split at h
  next c hg =>
    split at h
    next hc =>
      subst hc
      simp only [] at h
      have hline := stringBody_line (src.drop (s.pos + 1)) s.line
      have hseg : ∀ q : Nat, (src.drop s.pos).take (s.pos + 1 + q - s.pos)
          = '"' :: (src.drop (s.pos + 1)).take q := by
        intro q
        rw [drop_eq_cons_of_get? hg]
        have harith : s.pos + 1 + q - s.pos = q + 1 := by omega
        rw [harith, List.take_succ_cons]
      split at h <;> cases h
      · refine ⟨?_, fun hf => hf⟩
        dsimp only
        rw [hseg, hline]
        simp [countNewlines]
      · refine ⟨?_, fun _ => rfl⟩
        dsimp only
        rw [hseg, hline]
        simp [countNewlines]
    · cases h
  next => cases h

theorem scanNumberLiteral_inv {src : List Char} {s : ScanState} {r : ScanState × List Event}
    (h : scanNumberLiteral src s = some r) :
    r.1.line = s.line + countNewlines ((src.drop s.pos).take (r.1.pos - s.pos)) ∧
    (s.errorFlag = true → r.1.errorFlag = true) := by
  have hseg : countNewlines ((src.drop s.pos).take (numEnd src s - s.pos)) = 0 := by
    by_cases hdot : src.get? (numIntEnd src s) = some '.' ∧
        (src.get? (numIntEnd src s + 1)).any cIsDigit = true
    · rw [(num_segment_dot hdot).2, countNewlines_append]
      have h1 : countNewlines ((src.drop s.pos).takeWhile cIsDigit) = 0 := by
        apply countNewlines_eq_zero
        intro x hx
        exact (digit_char_facts (mem_takeWhile_pred hx)).1
      have h2 : countNewlines
          ('.' :: (src.drop (numIntEnd src s + 1)).takeWhile cIsDigit) = 0 := by
        simp only [countNewlines, if_neg (by decide : ¬ ('.' : Char) = '\n')]
        have := countNewlines_eq_zero
          (l := (src.drop (numIntEnd src s + 1)).takeWhile cIsDigit)
          (fun x hx => (digit_char_facts (mem_takeWhile_pred hx)).1)
        omega
      omega
    · rw [(num_segment_no_dot hdot).2]
      apply countNewlines_eq_zero
      intro x hx
      exact (digit_char_facts (mem_takeWhile_pred hx)).1
  unfold scanNumberLiteral at h
  split at h
  next c hg =>
    split at h
    next hd =>
      simp only [] at h
      split at h <;> cases h
      · exact ⟨by dsimp only; rw [hseg]; omega, fun _ => rfl⟩
      · exact ⟨by dsimp only; rw [hseg]; omega, fun hf => hf⟩
    · cases h
  next => cases h

theorem scanIdentifierOrKeyword_inv {src : List Char} {s : ScanState}
    {r : ScanState × List Event} (h : scanIdentifierOrKeyword src s = some r) :
    r.1.line = s.line + countNewlines ((src.drop s.pos).take (r.1.pos - s.pos)) ∧
    (s.errorFlag = true → r.1.errorFlag = true) := by
  unfold scanIdentifierOrKeyword at h
  split at h
  next c hg =>
    split at h
    next hd =>
      simp only [] at h
      cases h
      refine ⟨?_, fun hf => hf⟩
      dsimp only
      have harith : s.pos + 1 + ((src.drop (s.pos + 1)).takeWhile isIdentifierPartChar).length
          - s.pos = ((src.drop (s.pos + 1)).takeWhile isIdentifierPartChar).length + 1 := by
        omega
      rw [harith, drop_eq_cons_of_get? hg, List.take_succ_cons, take_takeWhile_length]
      simp only [countNewlines, if_neg (identStart_ne_newline hd)]
      have hz : countNewlines ((src.drop (s.pos + 1)).takeWhile isIdentifierPartChar) = 0 :=
        countNewlines_eq_zero (fun x hx => identPart_ne_newline (mem_takeWhile_pred hx))
      omega
    · cases h
  next => cases h

theorem scanOperator_inv {src : List Char} {s : ScanState} {r : ScanState × List Event}
    (h : scanOperator src s = some r) :
    r.1.line = s.line + countNewlines ((src.drop s.pos).take (r.1.pos - s.pos)) ∧
    (s.errorFlag = true → r.1.errorFlag = true) := by
  obtain ⟨L, ty, hL, hre, hreg⟩ := scanOperator_registered h
  subst hre
  refine ⟨?_, fun hf => hf⟩
  dsimp only
  have harith : s.pos + L - s.pos = L := by omega
  rw [harith]
  have hmem := registeredKind_isSome_mem opPairs _ hreg
  have hall : ∀ w ∈ opPairs.map (fun p => p.1), countNewlines w = 0 := by decide
  rw [hall _ hmem]
  omega

theorem scanNewline_none_of_tryMatchers {src : List Char} {s : ScanState}
    (h : tryMatchers src s = none) : scanNewline src s = none := by
  unfold tryMatchers at h
  cases h1 : scanNewline src s with
  | none => rfl
  | some r => rw [h1] at h; simp only [Option.orElse] at h; cases h

theorem ne_newline_of_scanNewline_none {src : List Char} {s : ScanState} {c : Char}
    (h : scanNewline src s = none) (hg : src.get? s.pos = some c) : c ≠ '\n' := by
  intro he
  unfold scanNewline at h
  rw [hg] at h
  dsimp only at h
  rw [if_pos he] at h
  cases h

/-- Line accounting and flag monotonicity for a fired matcher. -/
theorem tryMatchers_inv {src : List Char} {s : ScanState} {r : ScanState × List Event}
    (h : tryMatchers src s = some r) :
    r.1.line = s.line + countNewlines ((src.drop s.pos).take (r.1.pos - s.pos)) ∧
    (s.errorFlag = true → r.1.errorFlag = true) := by
  unfold tryMatchers at h
  cases h1 : scanNewline src s with
  | some r1 =>
    rw [h1] at h; simp only [Option.orElse] at h; cases h
    exact scanNewline_inv h1
  | none =>
  rw [h1] at h; simp only [Option.orElse] at h
  cases h2 : scanWhitespace src s with
  | some r2 =>
    rw [h2] at h; simp only [Option.orElse] at h; cases h
    exact scanWhitespace_inv h2
  | none =>
  rw [h2] at h; simp only [Option.orElse] at h
  cases h3 : scanComment src s with
  | some r3 =>
    rw [h3] at h; simp only [Option.orElse] at h; cases h
    exact scanComment_inv h3
  | none =>
  rw [h3] at h; simp only [Option.orElse] at h
  cases h4 : scanStringLiteral src s with
  | some r4 =>
    rw [h4] at h; simp only [Option.orElse] at h; cases h
    exact scanStringLiteral_inv h4
  | none =>
  rw [h4] at h; simp only [Option.orElse] at h
  cases h5 : scanNumberLiteral src s with
  | some r5 =>
    rw [h5] at h; simp only [Option.orElse] at h; cases h
    exact scanNumberLiteral_inv h5
  | none =>
  rw [h5] at h; simp only [Option.orElse] at h
  cases h6 : scanIdentifierOrKeyword src s with
  | some r6 =>
    rw [h6] at h; simp only [Option.orElse] at h; cases h
    exact scanIdentifierOrKeyword_inv h6
  | none =>
  rw [h6] at h; simp only [Option.orElse] at h
  exact scanOperator_inv h

/-- One driver iteration preserves the line invariant. -/
theorem stepScan_inv {src : List Char} {s : ScanState}
    (hline : s.line = 1 + countNewlines (src.take s.pos)) :
    (stepScan src s).1.line = 1 + countNewlines (src.take (stepScan src s).1.pos) := by
  cases hm : tryMatchers src s with
  | some r =>
    rw [stepScan_of_matched hm]
    obtain ⟨hl, _⟩ := tryMatchers_inv hm
    obtain ⟨hlt, _⟩ := tryMatchers_shape hm
    have hsplit := countNewlines_take_add src s.pos (r.1.pos - s.pos)
    rw [show s.pos + (r.1.pos - s.pos) = r.1.pos from by omega] at hsplit
    rw [hsplit, hl, hline]
    omega
  | none =>
    unfold stepScan
    rw [hm]
    dsimp only
    by_cases hlt : s.pos < src.length
    · rw [dif_pos hlt]
      dsimp only
      have hg : src.get? s.pos = some (src.get ⟨s.pos, hlt⟩) :=
        List.get?_eq_some.mpr ⟨hlt, rfl⟩
      have hne := ne_newline_of_scanNewline_none (scanNewline_none_of_tryMatchers hm) hg
      have hsplit := countNewlines_take_add src s.pos 1
      rw [drop_eq_cons_of_get? hg] at hsplit
      rw [hsplit]
      have h1 : List.take 1 (src.get ⟨s.pos, hlt⟩ :: src.drop (s.pos + 1))
          = [src.get ⟨s.pos, hlt⟩] := rfl
      rw [h1] at hsplit ⊢
      simp only [countNewlines, if_neg hne]
      omega
    · rw [dif_neg hlt]
      exact hline

/-- One driver iteration never resets the error flag. -/
theorem stepScan_flag {src : List Char} {s : ScanState} (h : s.errorFlag = true) :
    (stepScan src s).1.errorFlag = true := by
  cases hm : tryMatchers src s with
  | some r =>
    rw [stepScan_of_matched hm]
    exact (tryMatchers_inv hm).2 h
  | none =>
    unfold stepScan
    rw [hm]
    dsimp only
    by_cases hlt : s.pos < src.length
    · rw [dif_pos hlt]
    · rw [dif_neg hlt]
      exact h

/-- C4: at every reachable state of the scan, the line counter equals 1
plus the number of newline characters in the consumed source prefix
(every matcher having incremented it exactly once per consumed newline
and no other step touching it), and the error flag, once true, is never
reset by any driver iteration. -/
theorem c4_cursor_invariants (src : List Char) :
    (∀ s, Reach src s → s.line = 1 + countNewlines (src.take s.pos)) ∧
    (∀ s, s.errorFlag = true → (stepScan src s).1.errorFlag = true) := by
  constructor
  · intro s h
    induction h with
    | init => rfl
    | step s' hr hlt ih => exact stepScan_inv ih
  · intro s h
    exact stepScan_flag h

/-- C4 witness: after two iterations on the input "<newline>@" the line
counter is 2 = 1 + the one consumed newline, and a step from a state
with the flag set keeps it set. -/
theorem c4_witness :
    ((stepScan "\n@".toList (stepScan "\n@".toList initState).1).1.line
      = 1 + countNewlines (("\n@".toList).take
          (stepScan "\n@".toList (stepScan "\n@".toList initState).1).1.pos)) ∧
    (stepScan "\n@".toList ⟨1, 2, true⟩).1.errorFlag = true :=
  ⟨(c4_cursor_invariants "\n@".toList).1 _
     (Reach.step _ (Reach.step _ Reach.init (by decide)) (by decide)),
   (c4_cursor_invariants "\n@".toList).2 ⟨1, 2, true⟩ rfl⟩

/-- The scan consumes the whole source: from any in-range state the
loop ends with the offset at the source length. -/
theorem scanLoop_final (src : List Char) : ∀ (m : Nat) (s : ScanState),
    src.length - s.pos ≤ m → s.pos ≤ src.length → (scanLoop src s).1.pos = src.length := by
  intro m
  induction m with
  | zero =>
    intro s hm hle
    have hp : s.pos = src.length := by omega
    rw [scanLoop_end (by omega)]
    exact hp
  | succ m ih =>
    intro s hm hle
    by_cases hlt : s.pos < src.length
    · rw [scanLoop_cons hlt]
      dsimp only
      apply ih
      · have := stepScan_progress hlt
        have := stepScan_le hle
        omega
      · exact stepScan_le hle
    · rw [scanLoop_end hlt]
      show s.pos = src.length
      omega

/-- C10: every matcher in the pipeline strictly increases the offset
whenever it reports the position handled (the comment matcher by at
least two, since the newline it stops at cannot be among its first two
characters), the driver's unhandled branch advances by exactly one, so
every driver iteration strictly increases the offset; the offset never
exceeds the source length; and the scan terminates on every finite
input with the offset at the end of the source (`scanLoop` is total by
well-founded recursion on the remaining input). -/
theorem c10_progress_termination (src : List Char) (s : ScanState) :
    (∀ r, scanNewline src s = some r → s.pos < r.1.pos) ∧
    (∀ r, scanWhitespace src s = some r → s.pos < r.1.pos) ∧
    (∀ r, scanComment src s = some r → s.pos + 2 ≤ r.1.pos) ∧
    (∀ r, scanStringLiteral src s = some r → s.pos < r.1.pos) ∧
    (∀ r, scanNumberLiteral src s = some r → s.pos < r.1.pos) ∧
    (∀ r, scanIdentifierOrKeyword src s = some r → s.pos < r.1.pos) ∧
    (∀ r, scanOperator src s = some r → s.pos < r.1.pos) ∧
    (tryMatchers src s = none → s.pos < src.length → (stepScan src s).1.pos = s.pos + 1) ∧
    (s.pos < src.length → s.pos < (stepScan src s).1.pos) ∧
    (s.pos ≤ src.length → (stepScan src s).1.pos ≤ src.length) ∧
    (s.pos ≤ src.length → (scanLoop src s).1.pos = src.length) := by
  refine ⟨?_, ?_, ?_, ?_, ?_, ?_, ?_, ?_, ?_, ?_, ?_⟩
  · intro r h
    rw [(scanNewline_shape h).1]
    omega
  · intro r h
    rw [(scanWhitespace_shape h).1]
    omega
  · intro r h
    exact (scanComment_shape h).1
  · intro r h
    have := (scanStringLiteral_shape h).1
    omega
  · intro r h
    have := (scanNumberLiteral_shape h).1
    omega
  · intro r h
    have := (scanIdentifierOrKeyword_shape h).1
    omega
  · intro r h
    have := (scanOperator_shape h).1
    omega
  · intro hm hlt
    unfold stepScan
    rw [hm]
    dsimp only
    rw [dif_pos hlt]
  · exact fun h => stepScan_progress h
  · exact fun h => stepScan_le h
  · exact fun h => scanLoop_final src (src.length - s.pos) s (le_refl _) h

/-- C10 witness: the conjuncts applied at concrete inputs — the newline
matcher on "\n", the comment matcher on "//x" (advance 3 ≥ 2), the
unhandled branch on "@", and one step plus the full loop on "ab". -/
theorem c10_witness :
    (initState.pos < ((⟨1, 2, false⟩, ([] : List Event)) : ScanState × List Event).1.pos) ∧
    (initState.pos + 2 ≤ ((⟨3, 1, false⟩, ([] : List Event)) : ScanState × List Event).1.pos) ∧
    ((stepScan "@".toList initState).1.pos = initState.pos + 1) ∧
    (initState.pos < (stepScan "ab".toList initState).1.pos) ∧
    ((stepScan "ab".toList initState).1.pos ≤ ("ab".toList).length) ∧
    ((scanLoop "ab".toList initState).1.pos = ("ab".toList).length) :=
  ⟨(c10_progress_termination "\n".toList initState).1 (⟨1, 2, false⟩, []) (by decide),
   (c10_progress_termination "//x".toList initState).2.2.1 (⟨3, 1, false⟩, []) (by decide),
   (c10_progress_termination "@".toList initState).2.2.2.2.2.2.2.1 (by decide) (by decide),
   (c10_progress_termination "ab".toList initState).2.2.2.2.2.2.2.2.1 (by decide),
   (c10_progress_termination "ab".toList initState).2.2.2.2.2.2.2.2.2.1 (by decide),
   (c10_progress_termination "ab".toList initState).2.2.2.2.2.2.2.2.2.2 (by decide)⟩

/-- C9: scanning is deterministic — the scan's entire output (final
cursor, emitted token and error event sequence in order, and the
returned error flag) is a pure function of the input buffer, so two
invocations of `scanAndPrintTokens` on freshly constructed scanners
over the same buffer are identical.  (Each `Scanner.init` resets the
cursor to offset 0, line 1, flag false, and the scan reads no other
state.) -/
theorem c9_deterministic (src1 src2 : List Char) (h : src1 = src2) :
    (Scanner.init src1).scanAndPrintTokens = (Scanner.init src2).scanAndPrintTokens := by
  rw [h]

/-- C9 witness: two invocations on the buffer "var x". -/
theorem c9_witness :
    ("var x".toList = "var x".toList) ∧
    (Scanner.init "var x".toList).scanAndPrintTokens
      = (Scanner.init "var x".toList).scanAndPrintTokens :=
  ⟨rfl, c9_deterministic "var x".toList "var x".toList rfl⟩

/-- The fuel-driven log₂ brackets its argument when given enough
fuel. -/
theorem log2Fuel_bounds : ∀ (f n : Nat), n ≤ f → 1 ≤ n →
    2 ^ log2Fuel f n ≤ n ∧ n < 2 ^ (log2Fuel f n + 1) := by
  intro f
  induction f with
  | zero => intro n h1 h2; omega
  | succ f ih =>
    intro n h1 h2
    simp only [log2Fuel]
    by_cases h2n : 2 ≤ n
    · rw [if_pos h2n]
      have hlt : n / 2 < n := Nat.div_lt_self (by omega) (by omega)
      have hd : n / 2 ≤ f := by omega
      have h1d : 1 ≤ n / 2 := by omega
      obtain ⟨ha, hb⟩ := ih (n / 2) hd h1d
      constructor
      · rw [pow_succ]
        omega
      · rw [pow_succ (n := log2Fuel f (n / 2) + 1)]
        omega
    · rw [if_neg h2n]
      constructor
      · simpa using h2
      · simpa using (by omega : n < 2)

theorem natLog2_bounds {n : Nat} (h : 1 ≤ n) :
    2 ^ natLog2 n ≤ n ∧ n < 2 ^ (natLog2 n + 1) :=
  log2Fuel_bounds n n (le_refl n) h

theorem roundHalfEvenND_one (N : Nat) : roundHalfEvenND N 1 = N := by
  simp [roundHalfEvenND, Nat.mod_one, Nat.div_one]

theorem digitChar_toNat {d : Nat} (h : d < 10) :
    (Nat.digitChar d).toNat - 48 = d ∧ cIsDigit (Nat.digitChar d) = true := by
  interval_cases d <;> exact ⟨by decide, by decide⟩

theorem digitsVal_append_singleton (xs : List Char) (c : Char) :
    digitsVal (xs ++ [c]) = digitsVal xs * 10 + (c.toNat - 48) := by
  unfold digitsVal
  rw [List.foldl_append]
  rfl

/-- With enough fuel the renderer is a right inverse of the parser and
emits only digits. -/
theorem natDecimalAux_spec : ∀ (f n : Nat), n ≤ f →
    digitsVal (natDecimalAux f n) = n ∧ ∀ c ∈ natDecimalAux f n, cIsDigit c = true := by
  intro f
  induction f with
  | zero =>
    intro n h
    have hz : n = 0 := by omega
    subst hz
    exact ⟨rfl, fun c hc => absurd hc (by simp [natDecimalAux])⟩
  | succ f ih =>
    intro n h
    by_cases hz : n = 0
    · subst hz
      exact ⟨rfl, fun c hc => absurd hc (by simp [natDecimalAux])⟩
    · simp only [natDecimalAux, if_neg hz]
      have hlt : n / 10 < n := Nat.div_lt_self (by omega) (by omega)
      have hd : n / 10 ≤ f := by omega
      obtain ⟨ihv, ihd⟩ := ih (n / 10) hd
      have hm : n % 10 < 10 := Nat.mod_lt _ (by omega)
      obtain ⟨hdc, hdd⟩ := digitChar_toNat hm
      constructor
      · rw [digitsVal_append_singleton, ihv, hdc]
        omega
      · intro c hc
        rw [List.mem_append] at hc
        rcases hc with hc | hc
        · exact ihd c hc
        · rw [List.mem_singleton] at hc
          subst hc
          exact hdd

theorem digitsVal_render (n : Nat) : digitsVal (natDecimalRender n) = n := by
  unfold natDecimalRender
  by_cases hz : n = 0
  · subst hz; rfl
  · rw [if_neg hz]
    exact (natDecimalAux_spec n n (le_refl n)).1

theorem render_all_digits (n : Nat) : ∀ c ∈ natDecimalRender n, cIsDigit c = true := by
  unfold natDecimalRender
  by_cases hz : n = 0
  · subst hz
    intro c hc
    simp at hc
    subst hc
    decide
  · rw [if_neg hz]
    exact (natDecimalAux_spec n n (le_refl n)).2

theorem render_ne_nil (n : Nat) : natDecimalRender n ≠ [] := by
  intro he
  have := digitsVal_render n
  rw [he] at this
  unfold natDecimalRender at he
  by_cases hz : n = 0
  · rw [if_pos hz] at he; cases he
  · exact hz this.symm

/-- Rounding an integer below `2^53` to binary64 is exact: the result
denotes exactly that integer (with the mantissa scaled into the 53-bit
window). -/
theorem roundB64ND_int (n : Nat) (hn : 1 ≤ n) (h : n < 2 ^ 53) :
    roundB64ND n 1 = some (n * 2 ^ (52 - natLog2 n), (natLog2 n : Int) - 52) := by
  obtain ⟨hlo, hhi⟩ := natLog2_bounds hn
  have ha52 : natLog2 n ≤ 52 := by
    by_contra hgt
    have : (2 : Nat) ^ 53 ≤ 2 ^ natLog2 n := Nat.pow_le_pow_right (by omega) (by omega)
    omega
  have hne : n ≠ 0 := by omega
  have hfl : floorLog2ND n 1 = (natLog2 n : Int) := by
    unfold floorLog2ND
    rw [if_pos ?hcnd]
    case hcnd =>
      have h1 : natLog2 1 = 0 := rfl
      rw [h1]
      simpa using hlo
    have h1 : natLog2 1 = 0 := rfl
    rw [h1]
    omega
  have hulp : max ((natLog2 n : Int) - 52) (-1074) = (natLog2 n : Int) - 52 :=
    max_eq_left (by omega)
  have h53_1024 : (2 : Nat) ^ 53 ≤ 2 ^ 1024 := Nat.pow_le_pow_right (by omega) (by omega)
  unfold roundB64ND
  rw [if_neg hne]
  simp only []
  rw [hfl, hulp]
  by_cases hc : (0 : Int) ≤ (natLog2 n : Int) - 52
  · have ha : natLog2 n = 52 := by omega
    rw [if_pos hc, if_pos hc]
    have ht0 : ((natLog2 n : Int) - 52).toNat = 0 := by omega
    rw [ht0]
    have hm : roundHalfEvenND n (1 * 2 ^ 0) = n := by
      simpa using roundHalfEvenND_one n
    rw [hm]
    have hok : decide (n * 2 ^ 0 < 2 ^ 1024) = true := by
      rw [decide_eq_true_eq]
      have : n * 2 ^ 0 = n := by omega
      omega
    rw [hok]
    rw [ha]
    have hn52 : n * 2 ^ (52 - 52) = n := by norm_num
    rw [hn52]
    simp
  · rw [if_neg hc, if_neg hc]
    have htn : (-((natLog2 n : Int) - 52)).toNat = 52 - natLog2 n := by omega
    rw [htn]
    rw [roundHalfEvenND_one]
    have hok : decide (n * 2 ^ (52 - natLog2 n) < 2 ^ 1024 * 2 ^ (52 - natLog2 n)) = true := by
      rw [decide_eq_true_eq]
      have hp : 0 < 2 ^ (52 - natLog2 n) := Nat.pos_pow_of_pos _ (by omega)
      exact Nat.mul_lt_mul_of_lt_of_le (by omega) (le_refl _) hp
    rw [hok]
    simp

/-- On the decimal rendering of an integer, the stod model reduces to
rounding that integer. -/
theorem stodModel_int (n : Nat) : stodModel (natDecimalRender n) = roundB64ND n 1 := by
  unfold stodModel
  simp only []
  rw [takeWhile_all (render_all_digits n)]
  rw [List.drop_length]
  rw [digitsVal_render]
  norm_num [digitsVal]

/-- Formatting the exactly rounded integer prints the integer's digits
followed by ".0". -/
theorem format_int (n : Nat) (h52 : natLog2 n ≤ 52) :
    formatDoubleForLoxLiteral (n * 2 ^ (52 - natLog2 n), (natLog2 n : Int) - 52)
      = natDecimalRender n ++ ['.', '0'] := by
  unfold formatDoubleForLoxLiteral
  by_cases hc : (0 : Int) ≤ ((n * 2 ^ (52 - natLog2 n), (natLog2 n : Int) - 52) :
      Nat × Int).2
  · rw [if_pos hc]
    have ha : natLog2 n = 52 := by
      simp only at hc
      omega
    rw [ha]
    norm_num
  · rw [if_neg hc]
    simp only at hc ⊢
    have htn : (-((natLog2 n : Int) - 52)).toNat = 52 - natLog2 n := by omega
    rw [htn]
    have hdvd : n * 2 ^ (52 - natLog2 n) % 2 ^ (52 - natLog2 n) = 0 :=
      Nat.mul_mod_left _ _
    rw [if_pos hdvd]
    have hp : 0 < 2 ^ (52 - natLog2 n) := Nat.pos_pow_of_pos _ (by omega)
    rw [Nat.mul_div_cancel _ hp]

/-- The stod model is exact on renderings of integers below `2^53`,
and formatting the result prints the digits followed by ".0". -/
theorem stod_format_render (n : Nat) (h : n < 2 ^ 53) :
    ∃ v, stodModel (natDecimalRender n) = some v ∧
      formatDoubleForLoxLiteral v = natDecimalRender n ++ ['.', '0'] := by
  by_cases hz : n = 0
  · subst hz
    exact ⟨(0, 0), by decide, by decide⟩
  · have hn : 1 ≤ n := by omega
    have ha52 : natLog2 n ≤ 52 := by
      obtain ⟨hlo, _⟩ := natLog2_bounds hn
      by_contra hgt
      have : (2 : Nat) ^ 53 ≤ 2 ^ natLog2 n := Nat.pow_le_pow_right (by omega) (by omega)
      omega
    refine ⟨_, ?_, format_int n ha52⟩
    rw [stodModel_int]
    exact roundB64ND_int n hn h

/-- Scanning a nonempty all-digit source whose stod succeeds emits
exactly one NUMBER token with the whole source as lexeme. -/
theorem scan_digit_run (src : List Char) (hne : src ≠ [])
    (hall : ∀ c ∈ src, cIsDigit c = true) {v : Nat × Int}
    (hv : stodModel src = some v) :
    scanLoop src initState
      = (⟨src.length, 1, false⟩,
         [Event.token "NUMBER" src (some (formatDoubleForLoxLiteral v))]) := by
  cases src with
  | nil => exact absurd rfl hne
  | cons c t =>
  have hg : (c :: t).get? initState.pos = some c := rfl
  have hcd : cIsDigit c = true := hall c (List.mem_cons_self c t)
  have hfacts := digit_char_facts hcd
  have hipl : ((c :: t).drop initState.pos).takeWhile cIsDigit = c :: t :=
    takeWhile_all hall
  have hie : numIntEnd (c :: t) initState = (c :: t).length := by
    unfold numIntEnd
    rw [hipl]
    show 0 + (c :: t).length = (c :: t).length
    omega
  have hnone : (c :: t).get? ((c :: t).length) = none :=
    List.get?_eq_none.mpr (le_refl _)
  have hnd : ¬ ((c :: t).get? (numIntEnd (c :: t) initState) = some '.' ∧
      ((c :: t).get? (numIntEnd (c :: t) initState + 1)).any cIsDigit = true) := by
    intro hand
    have h1 := hand.1
    rw [hie, hnone] at h1
    cases h1
  have hnum : scanNumberLiteral (c :: t) initState
      = some (⟨(c :: t).length, 1, false⟩,
          [Event.token "NUMBER" (c :: t) (some (formatDoubleForLoxLiteral v))]) := by
    unfold scanNumberLiteral
    rw [hg]
    dsimp only
    rw [if_pos hcd]
    rw [(num_segment_no_dot hnd).2, hipl, hv]
    dsimp only
    rw [(num_segment_no_dot hnd).1, hie]
    rfl
  have htm := tryMatchers_number (scanNewline_none hg hfacts.1)
    (scanWhitespace_none hg hfacts.2.1) (scanComment_none hg hfacts.2.2.1)
    (scanStringLiteral_none hg hfacts.2.2.2.1) hnum
  have hstep := stepScan_of_matched htm
  have hlt : initState.pos < (c :: t).length := by
    show 0 < (c :: t).length
    simp
  rw [scanLoop_cons hlt, hstep]
  rw [scanLoop_end (by dsimp only; omega)]
  simp

/-- C7 (amended: every integer below `2^53`, i.e. exactly representable
in binary64): scanning the decimal rendering of `n` yields exactly one
NUMBER token whose lexeme is the digit string of `n` and whose printed
literal is the digit string of `n` followed by ".0" (exactly one
decimal digit). -/
theorem c7_integer_literal (n : Nat) (h : n < 2 ^ 53) :
    scanEvents (natDecimalRender n)
      = [Event.token "NUMBER" (natDecimalRender n)
          (some (natDecimalRender n ++ ['.', '0']))] := by
  obtain ⟨v, hv, hfmt⟩ := stod_format_render n h
  unfold scanEvents
  rw [scan_digit_run (natDecimalRender n) (render_ne_nil n) (render_all_digits n) hv]
  dsimp only
  rw [hfmt]

/-- C7 witness: scanning "123" yields one NUMBER token with literal
"123.0". -/
theorem c7_witness :
    (123 < 2 ^ 53) ∧
    scanEvents (natDecimalRender 123)
      = [Event.token "NUMBER" (natDecimalRender 123)
          (some (natDecimalRender 123 ++ ['.', '0']))] :=
  ⟨by decide, c7_integer_literal 123 (by decide)⟩

/-- C7 counterexample: at `n = 2^53 + 1 = 9007199254740993` the scan
does emit one NUMBER token, but `std::stod` rounds the value to the
nearest representable double `9007199254740992`, so the printed literal
is "9007199254740992.0", not the digit string of `n` followed by ".0"
as the claim states. -/
theorem c7_counterexample :
    scanEvents (natDecimalRender 9007199254740993)
      = [Event.token "NUMBER" (natDecimalRender 9007199254740993)
          (some (natDecimalRender 9007199254740992 ++ ['.', '0']))] ∧
    natDecimalRender 9007199254740992 ++ ['.', '0']
      ≠ natDecimalRender 9007199254740993 ++ ['.', '0'] := by
  constructor
  · have hlt : initState.pos < (natDecimalRender 9007199254740993).length := by decide
    have hstep : stepScan (natDecimalRender 9007199254740993) initState
        = (⟨(natDecimalRender 9007199254740993).length, 1, false⟩,
           [Event.token "NUMBER" (natDecimalRender 9007199254740993)
             (some (natDecimalRender 9007199254740992 ++ ['.', '0']))]) := by decide
    unfold scanEvents
    rw [scanLoop_cons hlt, hstep]
    rw [scanLoop_end (by decide)]
    simp
  · decide

theorem maxTerm_no_children {n : TrieNode} (h : n.children = []) :
    ∀ cs, maxTerm n cs = none := by
  intro cs
  cases cs with
  | nil => rfl
  | cons c rest => simp [maxTerm, h, childLookup]

/-- The trie's longest match on text starting with '.' is the one-
character DOT lexeme (no registered operator extends "."). -/
theorem searchLongestMatch_dot : ∀ cs,
    operatorTrie.searchLongestMatch ('.' :: cs) = (1, some "DOT") := by
  intro cs
  unfold OperatorTrie.searchLongestMatch
  rw [searchFrom_spec]
  obtain ⟨dn, hcl⟩ : ∃ dn, childLookup operatorTrie.root.children '.' = some dn := by
    cases hc : childLookup operatorTrie.root.children '.' with
    | none =>
      have hs : (childLookup operatorTrie.root.children '.').isSome = true := by decide
      rw [hc] at hs
      cases hs
    | some dn => exact ⟨dn, rfl⟩
  have hch : dn.children = [] := by
    have h0 : ((childLookup operatorTrie.root.children '.').getD emptyNode).children.length
        = 0 := by decide
    rw [hcl] at h0
    exact List.length_eq_zero.mp h0
  have htt : dn.token_type = some "DOT" := by
    have h0 : ((childLookup operatorTrie.root.children '.').getD emptyNode).token_type
        = some "DOT" := by decide
    rw [hcl] at h0
    exact h0
  have hmt : maxTerm operatorTrie.root ('.' :: cs) = some 1 := by
    simp only [maxTerm, hcl]
    rw [maxTerm_no_children hch]
    simp [htt]
  rw [hmt]
  dsimp only
  have hk : kindOf operatorTrie.root (('.' :: cs).take 1) = some "DOT" := by
    have h1 : ('.' :: cs).take 1 = ['.'] := rfl
    rw [h1]
    simp only [kindOf, hcl]
    exact htt
  rw [hk]

/-- At a position holding '.', the driver's step emits exactly the DOT
operator token and advances by one. -/
theorem stepScan_dot {src : List Char} {s : ScanState}
    (hg : src.get? s.pos = some '.') :
    stepScan src s = ({ s with pos := s.pos + 1 }, [Event.token "DOT" ['.'] none]) := by
  have hdrop := drop_eq_cons_of_get? hg
  have hlt : s.pos < src.length := pos_lt_of_get? hg
  have hop : scanOperator src s
      = some ({ s with pos := s.pos + 1 }, [Event.token "DOT" ['.'] none]) := by
    unfold scanOperator
    rw [if_pos hlt, hdrop, searchLongestMatch_dot]
    dsimp only
    rw [if_pos (by omega : (0 : Nat) < 1)]
    rfl
  apply stepScan_of_matched
  exact tryMatchers_operator (scanNewline_none hg (by decide))
    (scanWhitespace_none hg (by decide)) (scanComment_none hg (by decide))
    (scanStringLiteral_none hg (by decide)) (scanNumberLiteral_none hg (by decide))
    (scanIdentifierOrKeyword_none hg (by decide)) hop

/-- C5 (amended: the digit run's value must be within the range of a
double — otherwise `std::stod` overflows and the matcher reports an
out-of-range error instead of emitting the NUMBER token; the dot
handling is unchanged): on a run of ASCII digits followed by a dot that
is not followed by a digit (including a dot at end of input), the
number matcher consumes only the digit run into the NUMBER token's
lexeme and leaves the dot unconsumed, the next driver step tokenizes
the dot as DOT, and the number matcher never fires on an input whose
first character is a dot. -/
theorem c5_trailing_dot (src : List Char) (s : ScanState) (c : Char)
    (hg : src.get? s.pos = some c) (hcd : cIsDigit c = true)
    (hdot : src.get? (numIntEnd src s) = some '.')
    (hnd : (src.get? (numIntEnd src s + 1)).any cIsDigit = false)
    (hrange : (stodModel ((src.drop s.pos).takeWhile cIsDigit)).isSome = true) :
    (∃ v, stodModel ((src.drop s.pos).takeWhile cIsDigit) = some v ∧
      scanNumberLiteral src s
        = some ({ s with pos := numIntEnd src s },
            [Event.token "NUMBER" ((src.drop s.pos).takeWhile cIsDigit)
              (some (formatDoubleForLoxLiteral v))]) ∧
      stepScan src { s with pos := numIntEnd src s }
        = ({ s with pos := numIntEnd src s + 1 }, [Event.token "DOT" ['.'] none]) ∧
      scanLoop src s
        = ((scanLoop src { s with pos := numIntEnd src s + 1 }).1,
           Event.token "NUMBER" ((src.drop s.pos).takeWhile cIsDigit)
               (some (formatDoubleForLoxLiteral v))
             :: Event.token "DOT" ['.'] none
             :: (scanLoop src { s with pos := numIntEnd src s + 1 }).2)) ∧
    (∀ (s2 : List Char) (t2 : ScanState), s2.get? t2.pos = some '.' →
        scanNumberLiteral s2 t2 = none) := by
  have hfacts := digit_char_facts hcd
  have hnot : ¬ (src.get? (numIntEnd src s) = some '.' ∧
      (src.get? (numIntEnd src s + 1)).any cIsDigit = true) := by
    intro hand
    rw [hnd] at hand
    exact absurd hand.2 (by simp)
  obtain ⟨v, hv⟩ := Option.isSome_iff_exists.mp hrange
  have hnum : scanNumberLiteral src s
      = some ({ s with pos := numIntEnd src s },
          [Event.token "NUMBER" ((src.drop s.pos).takeWhile cIsDigit)
            (some (formatDoubleForLoxLiteral v))]) := by
    unfold scanNumberLiteral
    rw [hg]
    dsimp only
    rw [if_pos hcd]
    rw [(num_segment_no_dot hnot).2, hv]
    dsimp only
    rw [(num_segment_no_dot hnot).1]
  have hg2 : src.get? ({ s with pos := numIntEnd src s } : ScanState).pos = some '.' := hdot
  have hdotstep := stepScan_dot hg2
  refine ⟨⟨v, hv, hnum, ?_, ?_⟩, ?_⟩
  · exact hdotstep
  · have hlt1 : s.pos < src.length := pos_lt_of_get? hg
    have htm := tryMatchers_number (scanNewline_none hg hfacts.1)
      (scanWhitespace_none hg hfacts.2.1) (scanComment_none hg hfacts.2.2.1)
      (scanStringLiteral_none hg hfacts.2.2.2.1) hnum
    have hstep1 := stepScan_of_matched htm
    have hlt2 : ({ s with pos := numIntEnd src s } : ScanState).pos < src.length :=
      pos_lt_of_get? hg2
    rw [scanLoop_cons hlt1, hstep1]
    dsimp only
    rw [scanLoop_cons hlt2, hdotstep]
    simp
  · intro s2 t2 hgd
    exact scanNumberLiteral_none hgd (by decide)

/-- C5 witness: scanning "12.x" from the initial state — the NUMBER
token covers "12" only, the dot is then tokenized as DOT. -/
theorem c5_witness :
    (("12.x".toList).get? initState.pos = some '1') ∧
    cIsDigit '1' = true ∧
    (("12.x".toList).get? (numIntEnd "12.x".toList initState) = some '.') ∧
    ((("12.x".toList).get? (numIntEnd "12.x".toList initState + 1)).any cIsDigit = false) ∧
    ((stodModel (("12.x".toList.drop initState.pos).takeWhile cIsDigit)).isSome = true) ∧
    ((∃ v, stodModel (("12.x".toList.drop initState.pos).takeWhile cIsDigit) = some v ∧
      scanNumberLiteral "12.x".toList initState
        = some ({ initState with pos := numIntEnd "12.x".toList initState },
            [Event.token "NUMBER" (("12.x".toList.drop initState.pos).takeWhile cIsDigit)
              (some (formatDoubleForLoxLiteral v))]) ∧
      stepScan "12.x".toList { initState with pos := numIntEnd "12.x".toList initState }
        = ({ initState with pos := numIntEnd "12.x".toList initState + 1 },
           [Event.token "DOT" ['.'] none]) ∧
      scanLoop "12.x".toList initState
        = ((scanLoop "12.x".toList
              { initState with pos := numIntEnd "12.x".toList initState + 1 }).1,
           Event.token "NUMBER" (("12.x".toList.drop initState.pos).takeWhile cIsDigit)
               (some (formatDoubleForLoxLiteral v))
             :: Event.token "DOT" ['.'] none
             :: (scanLoop "12.x".toList
                  { initState with pos := numIntEnd "12.x".toList initState + 1 }).2)) ∧
    (∀ (s2 : List Char) (t2 : ScanState), s2.get? t2.pos = some '.' →
        scanNumberLiteral s2 t2 = none)) :=
  ⟨by decide, by decide, by decide, by decide, by decide,
   c5_trailing_dot "12.x".toList initState '1' (by decide) (by decide) (by decide)
     (by decide) (by decide)⟩

/-- C5 counterexample: a run of 310 nines followed by a dot is an input
of the claimed shape, but its value overflows `double`, so the matcher
consumes the digit run (leaving the dot unconsumed), reports an
out-of-range error, and emits NO NUMBER token at all — contradicting
"consumes only the digit run into the NUMBER token's lexeme". -/
theorem c5_counterexample :
    scanNumberLiteral (List.replicate 310 '9' ++ ['.']) initState
      = some (⟨310, 1, true⟩,
          [Event.error (ScanError.numberOutOfRange 1 (List.replicate 310 '9'))]) := by
  decide
